import Mathlib

/-!
Shallow embedding of the css-support-inspector analyzer
(source file: src/scripts/analyzer.ts).

The analyzer turns a style sheet into a deduplicated feature inventory,
resolves each feature against the MDN browser-compat dataset, aggregates a
per-browser minimum version, and renders one textual reason per browser.

Conventions of the embedding:
- JavaScript numbers are modelled as rationals (ℚ); the analyzer only ever
  produces them through parseFloat on digit/period strings, where the double
  rounding is irrelevant to every property stated here.  A JavaScript NaN is
  tracked explicitly where it can arise (normalizeVersion applied to a string
  that cleans to periods only).
- JavaScript strings are Lean strings; toLowerCase / trim / the regexes of
  the source are reimplemented character-by-character over the underlying
  character list so that all definitions evaluate inside the kernel.
- The css-tree parser and the @mdn/browser-compat-data dataset are external
  collaborators: they enter as parameters (a parse function returning an
  optional syntax tree, and a BCD record of lookup tables).
- JavaScript Map (insertion ordered, key deduplicated) is modelled as a list
  kept key-unique by the single insertion helper addFeature.
- Array.prototype.sort (stable in modern engines) is modelled as a stable
  insertion sort over the integer-valued comparator.
-/

/-- The closed browser set of the analyzer (SUPPORTED_BROWSERS). -/
inductive BrowserKey where
  | chrome
  | firefox
  | safari
deriving DecidableEq, Repr

/-- A record with one field per supported browser; models the
`Record<BrowserKey, T>` / `Partial<Record<BrowserKey, T>>` objects of the
source (for partial records the value type is an Option or a List). -/
structure PerBrowser (α : Type) where
  chrome : α
  firefox : α
  safari : α
deriving DecidableEq, Repr

def PerBrowser.get (r : PerBrowser α) : BrowserKey → α
  | .chrome => r.chrome
  | .firefox => r.firefox
  | .safari => r.safari

def PerBrowser.set (r : PerBrowser α) : BrowserKey → α → PerBrowser α
  | .chrome, v => { r with chrome := v }
  | .firefox, v => { r with firefox := v }
  | .safari, v => { r with safari := v }

def SUPPORTED_BROWSERS : List BrowserKey := [.chrome, .firefox, .safari]

/-- The `version_added` / `version_removed` value space of a compat
statement: a string, a boolean, or null. -/
inductive VersionToken where
  | str (s : String)
  | bool (b : Bool)
  | null
deriving DecidableEq, Repr

/-- JavaScript truthiness of a VersionToken (null and false and the empty
string are falsy). -/
def VersionToken.truthy : VersionToken → Bool
  | .str s => s ≠ ""
  | .bool b => b
  | .null => false

/-- One support statement of the compat dataset.  The source only ever
tests `flags`, `prefix` and `alternative_name` for truthiness, so they are
modelled as Booleans recording that truthiness (field `pfx` models the
source field `prefix`, which is a reserved word in Lean). -/
structure CompatStatement where
  version_added : VersionToken
  flags : Bool
  pfx : Bool
  alternative_name : Bool
deriving DecidableEq, Repr

/-- The `support[browser]` slot: absent, a single statement, or an array of
statements. -/
inductive Support where
  | undef
  | single (s : CompatStatement)
  | list (l : List CompatStatement)
deriving DecidableEq, Repr

/-- The `__compat` block of a compat entry: its per-browser support table. -/
structure CompatEntry where
  support : PerBrowser Support
deriving DecidableEq, Repr

/-- A node of the compat dataset (the source type CompatData): an optional
`__compat` block plus named sub-entries.  A sub-entry value of `none`
models a field whose value is not an object (the source guards candidate
lookups with a typeof check). -/
inductive CompatData where
  | mk (compat : Option CompatEntry) (fields : List (String × Option CompatData))

def CompatData.compat : CompatData → Option CompatEntry
  | .mk c _ => c

def CompatData.fields : CompatData → List (String × Option CompatData)
  | .mk _ f => f

/-- One release row of `bcd.browsers[x].releases`. -/
structure BrowserRelease where
  status : Option String
  release_date : Option String
deriving DecidableEq, Repr

/-- The slice of the @mdn/browser-compat-data dataset the analyzer reads:
`bcd.css.properties`, `bcd.css.selectors.nesting` and
`bcd.browsers[*].releases` (release tables keep the object insertion
order of Object.entries). -/
structure BCD where
  properties : List (String × CompatData)
  selectors_nesting : Option CompatData
  browsers : PerBrowser (Option (List (String × BrowserRelease)))

/-- The feature type tag of a FeatureUsage. -/
inductive FeatureType where
  | property
  | propertyValue
  | selector
deriving DecidableEq, Repr

/-- The `valueKind` tag of a property-value feature. -/
inductive ValueKind where
  | identifier
  | function
deriving DecidableEq, Repr

/-- One observed feature (the source interface FeatureUsage). -/
structure FeatureUsage where
  key : String
  type : FeatureType
  property : Option String
  value : Option String
  valueKind : Option ValueKind
  label : String
deriving DecidableEq, Repr

/-- The analysis output (the source interface AnalysisResult); the
`unsupported` partial record is modelled with [] standing for an absent
key, matching how the source only ever creates non-empty lists there. -/
structure AnalysisResult where
  features : List FeatureUsage
  minimumVersions : PerBrowser (Option String)
  latestVersions : PerBrowser (Option String)
  unsupported : PerBrowser (List String)
  reasons : PerBrowser String
deriving DecidableEq, Repr

/-! ## String utilities

Kernel-computable replacements for the JavaScript string operations used by
the source: toLowerCase, trim, the character classes of its regexes, and
number formatting. -/

/-- ASCII lower-casing of one character (the only case mapping the analyzer
needs: property and identifier names). -/
def lowerChar (c : Char) : Char :=
  if 'A' ≤ c ∧ c ≤ 'Z' then Char.ofNat (c.toNat + 32) else c

/-- toLowerCase over a whole string. -/
def strLower (s : String) : String := ⟨s.data.map lowerChar⟩

/-- The whitespace class used by String.prototype.trim and the regex
class \s (ASCII part; the analyzer only meets ASCII style text). -/
def isWsChar (c : Char) : Bool :=
  c = ' ' ∨ c = '\t' ∨ c = '\n' ∨ c = '\r' ∨ c = '\x0b' ∨ c = '\x0c'

/-- String.prototype.trim. -/
def strTrim (s : String) : String :=
  ⟨((s.data.dropWhile isWsChar).reverse.dropWhile isWsChar).reverse⟩

/-- Digits 0-9 to their numeric value, most significant first. -/
def digitsToNat (l : List Char) : Nat :=
  l.foldl (fun a c => a * 10 + (c.toNat - 48)) 0

/-- parseFloat restricted to strings over digits and periods (the only
strings the analyzer feeds it, after cleaning): the longest numeric prefix
`digits [ . digits ]` or `. digits`; none models NaN. -/
def parseFloatQ (s : String) : Option ℚ :=
  let cs := s.data
  let d1 := cs.takeWhile Char.isDigit
  let rest := cs.dropWhile Char.isDigit
  match rest with
  | '.' :: rest2 =>
    let d2 := rest2.takeWhile Char.isDigit
    if d1.isEmpty ∧ d2.isEmpty then none
    else some ((digitsToNat d1 : ℚ) + (digitsToNat d2 : ℚ) / ((10 : ℚ) ^ d2.length))
  | _ => if d1.isEmpty then none else some (digitsToNat d1 : ℚ)

/-- Number.toFixed(1) for the non-negative rationals the analyzer formats:
round half up at one decimal place. -/
def toFixed1 (q : ℚ) : String :=
  let t : ℤ := ⌊q * 10 + 1 / 2⌋
  toString (t / 10) ++ "." ++ toString (t % 10)

/-- The version formatting expression the source writes twice:
`Number.isInteger(v) ? String(v) : v.toFixed(1)`. -/
def fmtNum (q : ℚ) : String :=
  if q.den = 1 then toString q.num else toFixed1 q

/-! ## Feature extraction (collectFeatures)

The css-tree collaborator supplies `walk`, a pre-order traversal that
fires an enter callback on every node of a subtree.  It is modelled by the
sequence of enter events the callbacks observe: for each Declaration, the
node kinds entered inside its value subtree (Identifier and Function nodes
matter, every other kind is opaque), and for the second whole-tree walk the
number of NestingSelector nodes entered. -/

/-- One enter event of the walk over a declaration value subtree (function
arguments are part of the stream: the walk recurses through them). -/
inductive ValueEvent where
  | ident (name : String)
  | func (name : String)
  | other
deriving DecidableEq, Repr

/-- One Declaration node: raw property text and the enter events of its
value subtree in walk order. -/
structure Declaration where
  property : String
  value : List ValueEvent
deriving DecidableEq, Repr

/-- The syntax tree as seen by the two walks of collectFeatures. -/
structure Stylesheet where
  decls : List Declaration
  nestingNodes : Nat
deriving DecidableEq, Repr

/-- `features.set(key, feature)` guarded by `features.has(key)`: insert at
the end only when the key is new (source function addFeature). -/
def addFeature (features : List FeatureUsage) (feature : FeatureUsage) : List FeatureUsage :=
  if features.any (fun f => f.key == feature.key) then features
  else features ++ [feature]

/-- The property-value feature recorded for one Identifier node. -/
def identFeature (prop value : String) : FeatureUsage :=
  { key := "property-value:" ++ prop ++ ":" ++ value
    type := .propertyValue
    property := some prop
    value := some value
    valueKind := some .identifier
    label := prop ++ ": " ++ value }

/-- The property-value feature recorded for one Function node. -/
def funcFeature (prop value : String) : FeatureUsage :=
  { key := "property-value:" ++ prop ++ ":" ++ value ++ "()"
    type := .propertyValue
    property := some prop
    value := some value
    valueKind := some .function
    label := prop ++ ": " ++ value ++ "()" }

/-- The property feature recorded for one Declaration node. -/
def propFeature (prop : String) : FeatureUsage :=
  { key := "property:" ++ prop
    type := .property
    property := some prop
    value := none
    valueKind := none
    label := prop }

/-- The selector:nesting feature. -/
def nestingFeature : FeatureUsage :=
  { key := "selector:nesting"
    type := .selector
    property := none
    value := none
    valueKind := none
    label := "CSS nesting" }

/-- The inner `csstree.walk(node.value, ...)` visitor: every Identifier or
Function node entered below the value adds a property-value feature. -/
def walkValueList (prop : String) : List FeatureUsage → List ValueEvent → List FeatureUsage
  | features, [] => features
  | features, .ident name :: rest =>
    walkValueList prop (addFeature features (identFeature prop (strLower name))) rest
  | features, .func name :: rest =>
    walkValueList prop (addFeature features (funcFeature prop (strLower name))) rest
  | features, .other :: rest => walkValueList prop features rest

/-- The Declaration visitor of the first walk: normalize the property name,
skip an empty one, add the property feature, then walk the value. -/
def walkDeclaration (features : List FeatureUsage) (d : Declaration) : List FeatureUsage :=
  let prop := strLower (strTrim d.property)
  if prop = "" then features
  else walkValueList prop (addFeature features (propFeature prop)) d.value

/-- The second walk: one addFeature call per NestingSelector node. -/
def walkNesting (features : List FeatureUsage) : Nat → List FeatureUsage
  | 0 => features
  | n + 1 => walkNesting (addFeature features nestingFeature) n

/-- Source function collectFeatures: parse (returning the empty inventory
on parse failure, the catch branch), then the declaration walk, then the
nesting-selector walk. -/
def collectFeatures (parse : String → Option Stylesheet) (css : String) : List FeatureUsage :=
  match parse css with
  | none => []
  | some ast => walkNesting (ast.decls.foldl walkDeclaration []) ast.nestingNodes

/-! ## Compat resolution -/

/-- The character class of the second toMdnKey regex:
letters (case-insensitive flag i), digits, hyphen, underscore, percent,
parentheses and period survive; everything else becomes an underscore. -/
def isMdnKeyChar (c : Char) : Bool :=
  ('a' ≤ c ∧ c ≤ 'z') ∨ ('A' ≤ c ∧ c ≤ 'Z') ∨ c.isDigit ∨
    c = '-' ∨ c = '_' ∨ c = '%' ∨ c = '(' ∨ c = ')' ∨ c = '.'

/-- replace(/X+/g, r): collapse every run of characters satisfying p into
one copy of r. -/
def collapseRuns (p : Char → Bool) (r : Char) : List Char → Bool → List Char
  | [], _ => []
  | c :: cs, inRun =>
    if p c then
      if inRun then collapseRuns p r cs true
      else r :: collapseRuns p r cs true
    else c :: collapseRuns p r cs false

/-- replace(/^_|_$/g, ''): drop one leading and one trailing underscore. -/
def trimOneUnderscore (l : List Char) : List Char :=
  let l1 := match l with
    | '_' :: t => t
    | t => t
  if l1.getLast? = some '_' then l1.dropLast else l1

/-- Source function toMdnKey: whitespace runs to one underscore, disallowed
characters to underscores, collapse underscore runs, trim the ends. -/
def toMdnKey (value : String) : String :=
  let s1 := collapseRuns isWsChar '_' value.data false
  let s2 := s1.map (fun c => if isMdnKeyChar c then c else '_')
  let s3 := collapseRuns (fun c => c = '_') '_' s2 false
  ⟨trimOneUnderscore s3⟩

/-- Source function buildValueCandidates: an insertion-ordered set seeded
with the normalized value, plus the function-suffixed form for
function-kind features. -/
def buildValueCandidates (value : String) (kind : Option ValueKind) : List String :=
  let normalized := toMdnKey value
  let list := [normalized]
  if kind = some .function then
    if (normalized ++ "()") ∈ list then list else list ++ [normalized ++ "()"]
  else list

/-- `property[key]` on a compat node. -/
def lookupField (d : CompatData) (key : String) : Option (Option CompatData) :=
  (d.fields.find? (fun p => p.1 == key)).map (fun p => p.2)

/-- The candidate loop of resolveFeatureCompat: the first candidate that
names an object-valued entry (`property[key] && typeof ... === 'object'`). -/
def findFirstObject (property : CompatData) : List String → Option CompatData
  | [] => none
  | key :: rest =>
    match lookupField property key with
    | some (some cd) => some cd
    | _ => findFirstObject property rest

/-- JavaScript truthiness of the optional string fields of FeatureUsage
(`feature.property`, `feature.value`): present and non-empty. -/
def optTruthy : Option String → Option String
  | some s => if s = "" then none else some s
  | none => none

/-- Source function resolveFeatureCompat. -/
def resolveFeatureCompat (bcd : BCD) (feature : FeatureUsage) : Option CompatData :=
  match feature.type with
  | .property =>
    match optTruthy feature.property with
    | some p => (bcd.properties.find? (fun e => e.1 == p)).map (fun e => e.2)
    | none => none
  | .propertyValue =>
    match optTruthy feature.property, optTruthy feature.value with
    | some p, some v =>
      match (bcd.properties.find? (fun e => e.1 == p)).map (fun e => e.2) with
      | none => none
      | some property => findFirstObject property (buildValueCandidates v feature.valueKind)
    | _, _ => none
  | .selector =>
    if feature.key = "selector:nesting" then bcd.selectors_nesting else none

/-- Source function pickSupportStatement: a single statement is returned as
is; on an array, first the plain unconditional statement with a truthy
added-version, then the first statement whose added-version is not null,
then the first statement, then null. -/
def pickSupportStatement : Support → Option CompatStatement
  | .undef => none
  | .single s => some s
  | .list l =>
    let preferred := l.find? (fun e =>
      !e.flags && !e.pfx && !e.alternative_name && e.version_added.truthy)
    match preferred with
    | some p => some p
    | none =>
      match l.find? (fun e => e.version_added ≠ .null) with
      | some p => some p
      | none => l.head?

/-- The value space of normalizeVersion as a JavaScript expression:
a number, NaN (parseFloat of a cleaned string made of periods only), or
null. -/
inductive NormResult where
  | num (q : ℚ)
  | nan
  | null
deriving DecidableEq, Repr

/-- replace(/[^\d.]/g, ''). -/
def cleanVersion (s : String) : String :=
  ⟨s.data.filter (fun c => c.isDigit || c = '.')⟩

/-- Source function normalizeVersion: true to 0, false and null to null,
a string cleaned to digits and periods and fed to parseFloat (an empty
cleaned string to null). -/
def normalizeVersion : VersionToken → NormResult
  | .bool true => .num 0
  | .bool false => .null
  | .null => .null
  | .str s =>
    let cleaned := cleanVersion s
    if cleaned = "" then .null
    else
      match parseFloatQ cleaned with
      | some q => .num q
      | none => .nan

/-! ## Aggregation (the body of analyzeCssSupport) -/

/-- The mutable per-browser accumulators of analyzeCssSupport. -/
structure AggState where
  minimum : PerBrowser ℚ
  unsupported : PerBrowser (List String)
  limitingFeature : PerBrowser (Option String)
  limitingVersion : PerBrowser (Option ℚ)
deriving DecidableEq, Repr

def initAggState : AggState :=
  { minimum := ⟨0, 0, 0⟩
    unsupported := ⟨[], [], []⟩
    limitingFeature := ⟨none, none, none⟩
    limitingVersion := ⟨none, none, none⟩ }

/-- The statement handling inside the per-browser loop body: a null
normalized version marks the feature unsupported for that browser; a
version at least the running minimum becomes the new minimum and limiting
record (NaN compares false and changes nothing). -/
def stepStatement (feature : FeatureUsage) (statement : CompatStatement)
    (st : AggState) (browser : BrowserKey) : AggState :=
  match normalizeVersion statement.version_added with
  | .null =>
    { st with unsupported :=
        st.unsupported.set browser (st.unsupported.get browser ++ [feature.label]) }
  | .nan => st
  | .num version =>
    if st.minimum.get browser ≤ version then
      { st with
          minimum := st.minimum.set browser version
          limitingFeature := st.limitingFeature.set browser (some feature.label)
          limitingVersion := st.limitingVersion.set browser (some version) }
    else st

/-- The `SUPPORTED_BROWSERS.forEach` body: pick the representative support
statement, return when there is none. -/
def stepBrowser (feature : FeatureUsage) (compat : CompatEntry)
    (st : AggState) (browser : BrowserKey) : AggState :=
  match pickSupportStatement (compat.support.get browser) with
  | none => st
  | some statement => stepStatement feature statement st browser

/-- The `featureMap.forEach` body: resolve the feature, return when it has
no compat entry or no `__compat` block, otherwise fold the browser loop. -/
def stepFeature (bcd : BCD) (st : AggState) (feature : FeatureUsage) : AggState :=
  match resolveFeatureCompat bcd feature with
  | none => st
  | some cd =>
    match cd.compat with
    | none => st
    | some compat => SUPPORTED_BROWSERS.foldl (stepBrowser feature compat) st

/-- The whole aggregation loop over the feature inventory. -/
def aggregate (bcd : BCD) (features : List FeatureUsage) : AggState :=
  features.foldl (stepFeature bcd) initAggState

/-- Source function buildReason. -/
def buildReason (browser : BrowserKey) (unsupported : PerBrowser (List String))
    (limitingFeature : PerBrowser (Option String))
    (limitingVersion : PerBrowser (Option ℚ)) : String :=
  match unsupported.get browser with
  | u :: rest =>
    if (u :: rest).length = 1 then "Не поддерживается: " ++ u
    else "Не поддерживается: " ++ u ++ " (+" ++ toString ((u :: rest).length - 1) ++ " ещё)"
  | [] =>
    match limitingFeature.get browser, limitingVersion.get browser with
    | some feature, some version =>
      if feature = "" then "Ограничивающих фич не найдено"
      else "Ограничивает: " ++ feature ++ " (с версии " ++ fmtNum version ++ ")"
    | _, _ => "Ограничивающих фич не найдено"

/-- Source function formatVersion. -/
def formatVersion (version : ℚ) (unsupported : List String) : Option String :=
  if unsupported ≠ [] then none
  else if version = 0 then some "all"
  else some (fmtNum version)

/-! ## Latest-release lookup -/

/-- The operand of compareVersions: `normalizeVersion(v) ?? -1`; none
models NaN. -/
def verNumJs (s : String) : Option ℚ :=
  match normalizeVersion (.str s) with
  | .num q => some q
  | .nan => none
  | .null => some (-1)

/-- Source function compareVersions returns the difference of the two
operands (NaN when either operand is NaN); only its sign and truthiness
reach the sort, so the comparators below compare the operands directly. -/
def compareVersions (a b : String) : Option ℚ :=
  match verNumJs a, verNumJs b with
  | some x, some y => some (x - y)
  | _, _ => none

/-- Lexicographic three-way comparison of character lists. -/
def lexCmpChars : List Char → List Char → Int
  | [], [] => 0
  | [], _ :: _ => -1
  | _ :: _, [] => 1
  | a :: as, b :: bs => if a < b then -1 else if b < a then 1 else lexCmpChars as bs

/-- Sign of a lexicographic string comparison; models the use of
String.prototype.localeCompare on the ISO date strings of the dataset. -/
def strCmp (a b : String) : Int :=
  lexCmpChars a.data b.data

/-- Sign of the comparator of the current-release branch:
`compareVersions(a.version, b.version) || a.date.localeCompare(b.date)`
(a zero or NaN version difference is falsy and falls through to the
date; the sign of the difference x - y is compared as x against y). -/
def cmpStable (x y : String × String) : Int :=
  match verNumJs x.1, verNumJs y.1 with
  | some a, some b => if a < b then -1 else if b < a then 1 else strCmp x.2 y.2
  | _, _ => strCmp x.2 y.2

/-- Sign of the comparator of the fallback branch:
`a.date.localeCompare(b.date) || compareVersions(a.version, b.version)`
(a NaN version difference is neither negative nor positive under sort,
hence acts as a tie). -/
def cmpAll (x y : String × String) : Int :=
  if strCmp x.2 y.2 ≠ 0 then strCmp x.2 y.2
  else
    match verNumJs x.1, verNumJs y.1 with
    | some a, some b => if a < b then -1 else if b < a then 1 else 0
    | _, _ => 0

/-- Stable insertion of one element into a sorted list: x goes right
before the first strictly greater element, hence after every equal one. -/
def insertSorted (c : α → α → Int) (x : α) : List α → List α
  | [] => [x]
  | y :: ys => if c x y < 0 then x :: y :: ys else y :: insertSorted c x ys

/-- Array.prototype.sort with comparator c, as the stable insertion sort
(modern engines sort stably; for the total preorders used here the result
is the unique stable order). -/
def jsSort (c : α → α → Int) (l : List α) : List α :=
  l.foldl (fun acc x => insertSorted c x acc) []

/-- Source function getLatestVersionFromReleases: prefer the last element
of the sorted current-flagged releases, else the last element of all
releases sorted by date then version. -/
def getLatestVersionFromReleases
    (releases : Option (List (String × BrowserRelease))) : Option String :=
  match releases with
  | none => none
  | some rel =>
    let stable := (rel.filter (fun p => p.2.status = some "current")).map
      (fun p => (p.1, p.2.release_date.getD ""))
    if stable.length > 0 then
      ((jsSort cmpStable stable).getLast?).map (fun p => p.1)
    else
      let all := rel.map (fun p => (p.1, p.2.release_date.getD ""))
      ((jsSort cmpAll all).getLast?).map (fun p => p.1)

/-- Source function getLatestVersions. -/
def getLatestVersions (bcd : BCD) : PerBrowser (Option String) :=
  { chrome := getLatestVersionFromReleases (bcd.browsers.get .chrome)
    firefox := getLatestVersionFromReleases (bcd.browsers.get .firefox)
    safari := getLatestVersionFromReleases (bcd.browsers.get .safari) }

/-! ## The entry point -/

/-- The neutral prompt reason for empty input. -/
def emptyPrompt : String := "Добавьте CSS-код для анализа"

/-- Source function analyzeCssSupport, parameterized by the two external
collaborators: the css-tree parse capability and the compat dataset. -/
def analyzeCssSupport (bcd : BCD) (parse : String → Option Stylesheet)
    (css : String) : AnalysisResult :=
  let latestVersions := getLatestVersions bcd
  if strTrim css = "" then
    { features := []
      minimumVersions := ⟨none, none, none⟩
      latestVersions := latestVersions
      unsupported := ⟨[], [], []⟩
      reasons := ⟨emptyPrompt, emptyPrompt, emptyPrompt⟩ }
  else
    let featureMap := collectFeatures parse css
    let st := aggregate bcd featureMap
    { features := featureMap
      minimumVersions :=
        ⟨formatVersion (st.minimum.get .chrome) (st.unsupported.get .chrome),
         formatVersion (st.minimum.get .firefox) (st.unsupported.get .firefox),
         formatVersion (st.minimum.get .safari) (st.unsupported.get .safari)⟩
      latestVersions := latestVersions
      unsupported := st.unsupported
      reasons :=
        ⟨buildReason .chrome st.unsupported st.limitingFeature st.limitingVersion,
         buildReason .firefox st.unsupported st.limitingFeature st.limitingVersion,
         buildReason .safari st.unsupported st.limitingFeature st.limitingVersion⟩ }

/-! ## Decomposition of the aggregation loop

The loop body touches one browser's slice of the accumulators at a time.
The definitions below name what one feature contributes to one browser and
the per-browser slice of the state, so that the loop can be reasoned about
one browser at a time. -/

/-- What one feature contributes to one browser: nothing (unresolvable
feature, no statement, or a NaN version), an unsupported mark, or a
version requirement. -/
inductive FOutcome where
  | skip
  | unsup (label : String)
  | ver (q : ℚ) (label : String)
deriving DecidableEq, Repr

/-- The contribution of one picked statement. -/
def statementOutcome (feature : FeatureUsage) (statement : CompatStatement) : FOutcome :=
  match normalizeVersion statement.version_added with
  | .null => .unsup feature.label
  | .nan => .skip
  | .num q => .ver q feature.label

/-- The contribution of one resolved compat entry to one browser. -/
def browserOutcome (feature : FeatureUsage) (compat : CompatEntry) (b : BrowserKey) : FOutcome :=
  match pickSupportStatement (compat.support.get b) with
  | none => .skip
  | some statement => statementOutcome feature statement

/-- The contribution of one feature to one browser, through resolution. -/
def featureOutcome (bcd : BCD) (b : BrowserKey) (feature : FeatureUsage) : FOutcome :=
  match resolveFeatureCompat bcd feature with
  | none => .skip
  | some cd =>
    match cd.compat with
    | none => .skip
    | some compat => browserOutcome feature compat b

/-- One browser's slice of the aggregation state. -/
structure BState where
  min : ℚ
  unsup : List String
  limF : Option String
  limV : Option ℚ
deriving DecidableEq, Repr

/-- Project the aggregation state onto one browser. -/
def bproj (st : AggState) (b : BrowserKey) : BState :=
  ⟨st.minimum.get b, st.unsupported.get b, st.limitingFeature.get b, st.limitingVersion.get b⟩

/-- The per-browser step induced by one outcome. -/
def bstep (s : BState) : FOutcome → BState
  | .skip => s
  | .unsup label => { s with unsup := s.unsup ++ [label] }
  | .ver q label =>
    if s.min ≤ q then { s with min := q, limF := some label, limV := some q } else s

theorem PerBrowser.get_set_same (r : PerBrowser α) (b : BrowserKey) (v : α) :
    (r.set b v).get b = v := by
  cases b <;> rfl

theorem PerBrowser.get_set_ne (r : PerBrowser α) (b b' : BrowserKey) (v : α) (h : b ≠ b') :
    (r.set b' v).get b = r.get b := by
  cases b <;> cases b' <;> first | rfl | exact absurd rfl h

theorem bproj_stepStatement (f : FeatureUsage) (stm : CompatStatement) (st : AggState)
    (b b' : BrowserKey) :
    bproj (stepStatement f stm st b') b =
      if b' = b then bstep (bproj st b) (statementOutcome f stm) else bproj st b := by
  unfold stepStatement statementOutcome
  cases hn : normalizeVersion stm.version_added with
  | null =>
    by_cases hb : b' = b
    · subst hb; simp [bproj, bstep, PerBrowser.get_set_same]
    · simp [hb, bproj, bstep, PerBrowser.get_set_ne _ _ _ _ (Ne.symm hb)]
  | nan => by_cases hb : b' = b <;> simp [hb, bproj, bstep]
  | num q =>
    by_cases hb : b' = b
    · subst hb
      by_cases hle : st.minimum.get b' ≤ q <;>
        simp [hle, bproj, bstep, PerBrowser.get_set_same]
    · by_cases hle : st.minimum.get b' ≤ q <;>
        simp [hb, hle, bproj, bstep, PerBrowser.get_set_ne _ _ _ _ (Ne.symm hb)]

theorem bproj_stepBrowser (f : FeatureUsage) (ce : CompatEntry) (st : AggState)
    (b b' : BrowserKey) :
    bproj (stepBrowser f ce st b') b =
      if b' = b then bstep (bproj st b) (browserOutcome f ce b') else bproj st b := by
  unfold stepBrowser browserOutcome
  cases hp : pickSupportStatement (ce.support.get b') with
  | none => by_cases hb : b' = b <;> simp [hb, bstep]
  | some stm => exact bproj_stepStatement f stm st b b'

theorem bproj_stepFeature (bcd : BCD) (st : AggState) (f : FeatureUsage) (b : BrowserKey) :
    bproj (stepFeature bcd st f) b = bstep (bproj st b) (featureOutcome bcd b f) := by
  cases hr : resolveFeatureCompat bcd f with
  | none => simp [stepFeature, featureOutcome, hr, bstep]
  | some cd =>
    cases hc : cd.compat with
    | none => simp [stepFeature, featureOutcome, hr, hc, bstep]
    | some ce =>
      simp only [stepFeature, featureOutcome, hr, hc]
      simp only [SUPPORTED_BROWSERS, List.foldl]
      cases b <;> simp [bproj_stepBrowser]

theorem bproj_foldl (bcd : BCD) (l : List FeatureUsage) (st : AggState) (b : BrowserKey) :
    bproj (l.foldl (stepFeature bcd) st) b
      = (l.map (featureOutcome bcd b)).foldl bstep (bproj st b) := by
  induction l generalizing st with
  | nil => rfl
  | cons f rest ih => simp [List.foldl_cons, ih, bproj_stepFeature]

theorem bproj_aggregate (bcd : BCD) (l : List FeatureUsage) (b : BrowserKey) :
    bproj (aggregate bcd l) b
      = (l.map (featureOutcome bcd b)).foldl bstep ⟨0, [], none, none⟩ := by
  unfold aggregate
  rw [bproj_foldl]
  have h0 : bproj initAggState b = ⟨0, [], none, none⟩ := by cases b <;> rfl
  rw [h0]

/-- The version requirements among a list of outcomes, in order. -/
def versionEntries (l : List FOutcome) : List (ℚ × String) :=
  l.filterMap fun o =>
    match o with
    | .ver q lab => some (q, lab)
    | _ => none

/-- The unsupported labels among a list of outcomes, in order. -/
def unsupLabels (l : List FOutcome) : List String :=
  l.filterMap fun o =>
    match o with
    | .unsup lab => some lab
    | _ => none

/-- The version requirements one browser collects from a feature list:
the resolvable features whose picked statement normalizes to a number. -/
def supportedVersions (bcd : BCD) (b : BrowserKey) (features : List FeatureUsage) :
    List (ℚ × String) :=
  versionEntries (features.map (featureOutcome bcd b))

theorem bstep_min (s : BState) (o : FOutcome) :
    (bstep s o).min = match o with
      | .ver q _ => max s.min q
      | _ => s.min := by
  cases o with
  | skip => rfl
  | unsup lab => rfl
  | ver q lab =>
    by_cases h : s.min ≤ q
    · simp [bstep, h, max_eq_right h]
    · simp [bstep, h, max_eq_left (le_of_not_le h)]

theorem foldl_bstep_min (l : List FOutcome) (s : BState) :
    (l.foldl bstep s).min = (versionEntries l).foldl (fun m p => max m p.1) s.min := by
  induction l generalizing s with
  | nil => rfl
  | cons o rest ih =>
    rw [List.foldl_cons, ih]
    cases o with
    | skip => rfl
    | unsup lab => rfl
    | ver q lab => simp [versionEntries, List.filterMap_cons, bstep_min]

theorem bstep_unsup (s : BState) (o : FOutcome) :
    (bstep s o).unsup = s.unsup ++ match o with
      | .unsup lab => [lab]
      | _ => [] := by
  cases o with
  | skip => simp [bstep]
  | unsup lab => rfl
  | ver q lab => by_cases h : s.min ≤ q <;> simp [bstep, h]

theorem foldl_bstep_unsup (l : List FOutcome) (s : BState) :
    (l.foldl bstep s).unsup = s.unsup ++ unsupLabels l := by
  induction l generalizing s with
  | nil => simp [unsupLabels]
  | cons o rest ih =>
    rw [List.foldl_cons, ih, bstep_unsup]
    cases o with
    | skip => simp [unsupLabels, List.filterMap_cons]
    | unsup lab => simp [unsupLabels, List.filterMap_cons]
    | ver q lab => simp [unsupLabels, List.filterMap_cons]

/-- The running update on (minimum, limiting feature, limiting version)
performed by one version entry. -/
def limStep (a : ℚ × Option String × Option ℚ) (p : ℚ × String) :
    ℚ × Option String × Option ℚ :=
  if a.1 ≤ p.1 then (p.1, some p.2, some p.1) else a

theorem foldl_bstep_lim (l : List FOutcome) (s : BState) :
    ((l.foldl bstep s).min, (l.foldl bstep s).limF, (l.foldl bstep s).limV)
      = (versionEntries l).foldl limStep (s.min, s.limF, s.limV) := by
  induction l generalizing s with
  | nil => rfl
  | cons o rest ih =>
    rw [List.foldl_cons]
    cases o with
    | skip => rw [ih]; rfl
    | unsup lab => rw [ih]; rfl
    | ver q lab =>
      rw [ih]
      simp only [versionEntries, List.filterMap_cons]
      by_cases h : s.min ≤ q
      · simp [bstep, h, limStep, versionEntries]
      · simp [bstep, h, limStep, versionEntries]

/-- The argmax step: keep the later entry on a tie. -/
def argStep (acc : Option (ℚ × String)) (p : ℚ × String) : Option (ℚ × String) :=
  match acc with
  | none => some p
  | some q => if q.1 ≤ p.1 then some p else some q

/-- The last entry attaining the maximal version (later entries win ties). -/
def lastArgMax (l : List (ℚ × String)) : Option (ℚ × String) :=
  l.foldl argStep none

/-- The (minimum, limiting feature, limiting version) triple an argmax
value stands for. -/
def limOfArg : Option (ℚ × String) → ℚ × Option String × Option ℚ
  | none => (0, none, none)
  | some p => (p.1, some p.2, some p.1)

theorem foldl_limStep_argStep (l : List (ℚ × String)) (acc : Option (ℚ × String))
    (h : ∀ p ∈ l, 0 ≤ p.1) :
    l.foldl limStep (limOfArg acc) = limOfArg (l.foldl argStep acc) := by
  induction l generalizing acc with
  | nil => rfl
  | cons p rest ih =>
    have hp : 0 ≤ p.1 := h p (List.mem_cons_self _ _)
    have hrest : ∀ x ∈ rest, 0 ≤ x.1 := fun x hx => h x (List.mem_cons_of_mem _ hx)
    rw [List.foldl_cons, List.foldl_cons]
    cases acc with
    | none =>
      have h1 : limStep (limOfArg none) p = limOfArg (argStep none p) := by
        simp [limStep, argStep, limOfArg, hp]
      rw [h1]; exact ih _ hrest
    | some q =>
      by_cases hle : q.1 ≤ p.1
      · have h1 : limStep (limOfArg (some q)) p = limOfArg (argStep (some q) p) := by
          simp [limStep, argStep, limOfArg, hle]
        rw [h1]; exact ih _ hrest
      · have h1 : limStep (limOfArg (some q)) p = limOfArg (argStep (some q) p) := by
          simp [limStep, argStep, limOfArg, hle]
        rw [h1]; exact ih _ hrest

theorem parseFloatQ_nonneg (s : String) (q : ℚ) (h : parseFloatQ s = some q) : 0 ≤ q := by
  simp only [parseFloatQ] at h
  split at h
  · split_ifs at h
    rw [Option.some.injEq] at h
    rw [← h]
    positivity
  · split_ifs at h
    rw [Option.some.injEq] at h
    rw [← h]
    positivity

theorem normalizeVersion_num_nonneg (v : VersionToken) (q : ℚ)
    (h : normalizeVersion v = .num q) : 0 ≤ q := by
  cases v with
  | str s =>
    simp only [normalizeVersion] at h
    split_ifs at h
    split at h
    · rw [NormResult.num.injEq] at h
      exact h ▸ parseFloatQ_nonneg _ _ (by assumption)
    · exact absurd h (by simp)
  | bool b =>
    cases b with
    | true => rw [normalizeVersion, NormResult.num.injEq] at h; rw [← h]
    | false => exact absurd h (by simp [normalizeVersion])
  | null => exact absurd h (by simp [normalizeVersion])

theorem statementOutcome_ver (f : FeatureUsage) (stm : CompatStatement) (q : ℚ) (lab : String)
    (h : statementOutcome f stm = .ver q lab) :
    normalizeVersion stm.version_added = .num q ∧ lab = f.label := by
  unfold statementOutcome at h
  split at h
  · exact absurd h (by simp)
  · exact absurd h (by simp)
  · rw [FOutcome.ver.injEq] at h
    refine ⟨?_, h.2.symm⟩
    rw [← h.1]; assumption

theorem featureOutcome_ver (bcd : BCD) (b : BrowserKey) (f : FeatureUsage) (q : ℚ) (lab : String)
    (h : featureOutcome bcd b f = .ver q lab) :
    ∃ stm : CompatStatement, normalizeVersion stm.version_added = .num q ∧ lab = f.label := by
  unfold featureOutcome at h
  split at h
  · exact absurd h (by simp)
  · rename_i cd _
    split at h
    · exact absurd h (by simp)
    · rename_i ce _
      unfold browserOutcome at h
      split at h
      · exact absurd h (by simp)
      · rename_i stm _
        exact ⟨stm, statementOutcome_ver f stm q lab h⟩

theorem supportedVersions_nonneg (bcd : BCD) (b : BrowserKey) (features : List FeatureUsage) :
    ∀ p ∈ supportedVersions bcd b features, 0 ≤ p.1 := by
  intro p hp
  unfold supportedVersions versionEntries at hp
  rw [List.mem_filterMap] at hp
  obtain ⟨o, ho, heq⟩ := hp
  rw [List.mem_map] at ho
  obtain ⟨f, _, hf⟩ := ho
  cases o with
  | skip => exact absurd heq (by simp)
  | unsup lab => exact absurd heq (by simp)
  | ver q lab =>
    simp only [Option.some.injEq] at heq
    obtain ⟨stm, hn, _⟩ := featureOutcome_ver bcd b f q lab hf
    have := normalizeVersion_num_nonneg _ _ hn
    rw [← heq]
    exact this

/-- A support statement with no flag, prefix or alternative name. -/
def plainStatement (v : VersionToken) : CompatStatement :=
  { version_added := v, flags := false, pfx := false, alternative_name := false }

/-- A compat entry whose three browsers share one single statement. -/
def singleEntry (v : VersionToken) : CompatData :=
  .mk (some ⟨⟨.single (plainStatement v), .single (plainStatement v),
    .single (plainStatement v)⟩⟩) []

/-- Scenario D dataset: property gap since version 80, property
aspect-ratio since version 90, on every browser. -/
def scenarioD_bcd : BCD :=
  { properties := [("gap", singleEntry (.str "80")), ("aspect-ratio", singleEntry (.str "90"))]
    selectors_nesting := none
    browsers := ⟨none, none, none⟩ }

/-- Scenario D syntax tree: two declarations, gap then aspect-ratio. -/
def scenarioD_parse : String → Option Stylesheet :=
  fun _ => some { decls := [{ property := "gap", value := [] },
    { property := "aspect-ratio", value := [] }], nestingNodes := 0 }

/-- C4: for every browser the aggregated running minimum is the maximum of
the normalized added-versions of the resolvable supported features (from
the floor 0), the recorded limiting feature and version are the ones of
the last entry attaining that maximum (later-processed features win ties),
and concretely two declarations requiring versions 80 and 90 yield the
minimum "90" with the aspect-ratio property as limiting feature. -/
theorem claim_c4_aggregate_max_lastwins (bcd : BCD) (features : List FeatureUsage)
    (b : BrowserKey) :
    (aggregate bcd features).minimum.get b
        = ((supportedVersions bcd b features).map Prod.fst).foldl max 0
    ∧ (aggregate bcd features).limitingFeature.get b
        = (lastArgMax (supportedVersions bcd b features)).map Prod.snd
    ∧ (aggregate bcd features).limitingVersion.get b
        = (lastArgMax (supportedVersions bcd b features)).map Prod.fst
    ∧ (analyzeCssSupport scenarioD_bcd scenarioD_parse "a{}").minimumVersions.get .chrome
        = some "90"
    ∧ (analyzeCssSupport scenarioD_bcd scenarioD_parse "a{}").reasons.get .chrome
        = "Ограничивает: aspect-ratio (с версии 90)" := by
  have hproj := bproj_aggregate bcd features b
  have htriple := foldl_bstep_lim (features.map (featureOutcome bcd b)) ⟨0, [], none, none⟩
  have hargs := foldl_limStep_argStep (supportedVersions bcd b features) none
    (supportedVersions_nonneg bcd b features)
  have hfull : (((features.map (featureOutcome bcd b)).foldl bstep ⟨0, [], none, none⟩).min,
      ((features.map (featureOutcome bcd b)).foldl bstep ⟨0, [], none, none⟩).limF,
      ((features.map (featureOutcome bcd b)).foldl bstep ⟨0, [], none, none⟩).limV)
      = limOfArg (lastArgMax (supportedVersions bcd b features)) := htriple.trans hargs
  refine ⟨?_, ?_, ?_, by decide, by decide⟩
  · have h1 : (aggregate bcd features).minimum.get b
        = ((features.map (featureOutcome bcd b)).foldl bstep ⟨0, [], none, none⟩).min :=
      congrArg BState.min hproj
    rw [h1, foldl_bstep_min, List.foldl_map]
    rfl
  · have h1 : (aggregate bcd features).limitingFeature.get b
        = ((features.map (featureOutcome bcd b)).foldl bstep ⟨0, [], none, none⟩).limF :=
      congrArg BState.limF hproj
    have h2 := congrArg (fun t : ℚ × Option String × Option ℚ => t.2.1) hfull
    simp only at h2
    rw [h1, h2]
    cases lastArgMax (supportedVersions bcd b features) with
    | none => rfl
    | some p => rfl
  · have h1 : (aggregate bcd features).limitingVersion.get b
        = ((features.map (featureOutcome bcd b)).foldl bstep ⟨0, [], none, none⟩).limV :=
      congrArg BState.limV hproj
    have h2 := congrArg (fun t : ℚ × Option String × Option ℚ => t.2.2) hfull
    simp only at h2
    rw [h1, h2]
    cases lastArgMax (supportedVersions bcd b features) with
    | none => rfl
    | some p => rfl

/-- C7: when the parser produces no syntax tree, collectFeatures returns
the empty inventory instead of propagating the failure. -/
theorem claim_c7_parse_failure_empty (parse : String → Option Stylesheet) (css : String)
    (h : parse css = none) : collectFeatures parse css = [] := by
  unfold collectFeatures
  rw [h]

/-- Witness for C7 at a concrete failing parser and input. -/
theorem claim_c7_witness :
    (fun _ : String => (none : Option Stylesheet)) "broken" = none
    ∧ collectFeatures (fun _ : String => (none : Option Stylesheet)) "broken" = [] :=
  ⟨rfl, claim_c7_parse_failure_empty (fun _ => none) "broken" rfl⟩

/-- C8: on empty or whitespace-only input the analyzer returns the empty
feature list, absent minimum versions, an empty unsupported map, and the
neutral prompt reason for every browser. -/
theorem claim_c8_empty_input (bcd : BCD) (parse : String → Option Stylesheet) (css : String)
    (h : strTrim css = "") :
    analyzeCssSupport bcd parse css =
      { features := []
        minimumVersions := ⟨none, none, none⟩
        latestVersions := getLatestVersions bcd
        unsupported := ⟨[], [], []⟩
        reasons := ⟨emptyPrompt, emptyPrompt, emptyPrompt⟩ } := by
  simp [analyzeCssSupport, h]

/-- Witness for C8 at a concrete whitespace-only input. -/
theorem claim_c8_witness :
    strTrim " \n\t " = ""
    ∧ analyzeCssSupport scenarioD_bcd scenarioD_parse " \n\t " =
      { features := []
        minimumVersions := ⟨none, none, none⟩
        latestVersions := getLatestVersions scenarioD_bcd
        unsupported := ⟨[], [], []⟩
        reasons := ⟨emptyPrompt, emptyPrompt, emptyPrompt⟩ } :=
  ⟨by decide, claim_c8_empty_input scenarioD_bcd scenarioD_parse " \n\t " (by decide)⟩

/-- C10: an added-version string without digits and periods normalizes to
null, and the aggregation step then treats the feature exactly as an
added-version of false: the label is appended to the browser's
unsupported list and the running minimum is untouched. -/
theorem claim_c10_no_digits_unsupported (s : String)
    (h : ∀ c ∈ s.data, ¬(c.isDigit = true ∨ c = '.')) :
    normalizeVersion (.str s) = .null
    ∧ normalizeVersion (.str s) = normalizeVersion (.bool false)
    ∧ ∀ (f : FeatureUsage) (st : AggState) (b : BrowserKey) (fl pf an : Bool),
        stepStatement f ⟨.str s, fl, pf, an⟩ st b
          = { st with unsupported := st.unsupported.set b (st.unsupported.get b ++ [f.label]) }
        ∧ stepStatement f ⟨.str s, fl, pf, an⟩ st b = stepStatement f ⟨.bool false, fl, pf, an⟩ st b
        ∧ (stepStatement f ⟨.str s, fl, pf, an⟩ st b).minimum = st.minimum := by
  have hfilter : s.data.filter (fun c => c.isDigit || c = '.') = [] := by
    rw [List.filter_eq_nil_iff]
    intro a ha
    simpa using h a ha
  have hclean : cleanVersion s = "" := by
    unfold cleanVersion
    rw [hfilter]
  have hnv : normalizeVersion (.str s) = .null := by
    simp [normalizeVersion, hclean]
  refine ⟨hnv, by rw [hnv]; rfl, ?_⟩
  intro f st b fl pf an
  refine ⟨?_, ?_, ?_⟩
  · show stepStatement f ⟨.str s, fl, pf, an⟩ st b = _
    unfold stepStatement
    rw [show (⟨.str s, fl, pf, an⟩ : CompatStatement).version_added = .str s from rfl, hnv]
  · unfold stepStatement
    rw [show (⟨.str s, fl, pf, an⟩ : CompatStatement).version_added = .str s from rfl, hnv]
    rfl
  · unfold stepStatement
    rw [show (⟨.str s, fl, pf, an⟩ : CompatStatement).version_added = .str s from rfl, hnv]

/-- Witness for C10 at the added-version string "preview". -/
theorem claim_c10_witness :
    normalizeVersion (.str "preview") = .null
    ∧ stepStatement (propFeature "gap") ⟨.str "preview", false, false, false⟩ initAggState .chrome
      = { initAggState with unsupported := (initAggState.unsupported.set .chrome
            (initAggState.unsupported.get .chrome ++ [(propFeature "gap").label])) } :=
  ⟨(claim_c10_no_digits_unsupported "preview" (by decide)).1,
   ((claim_c10_no_digits_unsupported "preview" (by decide)).2.2 (propFeature "gap")
      initAggState .chrome false false false).1⟩

/-! ## Inventory key-distinctness -/

/-- Every inventory key occurs at most once. -/
def NodupKeys (l : List FeatureUsage) : Prop :=
  List.Pairwise (fun a b => a.key ≠ b.key) l

theorem addFeature_nodup (l : List FeatureUsage) (f : FeatureUsage) (h : NodupKeys l) :
    NodupKeys (addFeature l f) := by
  unfold addFeature
  by_cases ha : l.any (fun g => g.key == f.key)
  · rw [if_pos ha]; exact h
  · rw [if_neg ha]
    unfold NodupKeys at h ⊢
    rw [List.pairwise_append]
    refine ⟨h, List.pairwise_singleton _ _, ?_⟩
    intro a hal b hb hkey
    rw [List.mem_singleton] at hb
    subst hb
    apply ha
    rw [List.any_eq_true]
    exact ⟨a, hal, by rw [beq_iff_eq]; exact hkey⟩

theorem walkValueList_nodup (prop : String) (events : List ValueEvent) :
    ∀ fs, NodupKeys fs → NodupKeys (walkValueList prop fs events) := by
  induction events with
  | nil => exact fun fs h => h
  | cons e rest ih =>
    intro fs h
    cases e with
    | ident name => exact ih _ (addFeature_nodup _ _ h)
    | func name => exact ih _ (addFeature_nodup _ _ h)
    | other => exact ih _ h

theorem walkDeclaration_nodup (fs : List FeatureUsage) (d : Declaration) (h : NodupKeys fs) :
    NodupKeys (walkDeclaration fs d) := by
  unfold walkDeclaration
  dsimp only
  split
  · exact h
  · exact walkValueList_nodup _ _ _ (addFeature_nodup _ _ h)

theorem foldl_walkDeclaration_nodup (decls : List Declaration) :
    ∀ fs, NodupKeys fs → NodupKeys (decls.foldl walkDeclaration fs) := by
  induction decls with
  | nil => exact fun fs h => h
  | cons d rest ih => exact fun fs h => ih _ (walkDeclaration_nodup _ _ h)

theorem walkNesting_nodup (n : Nat) : ∀ fs, NodupKeys fs → NodupKeys (walkNesting fs n) := by
  induction n with
  | zero => exact fun fs h => h
  | succ m ih => exact fun fs h => ih _ (addFeature_nodup _ _ h)

theorem collectFeatures_nodup (parse : String → Option Stylesheet) (css : String) :
    NodupKeys (collectFeatures parse css) := by
  unfold collectFeatures
  cases parse css with
  | none => exact List.Pairwise.nil
  | some ast =>
    exact walkNesting_nodup _ _ (foldl_walkDeclaration_nodup _ _ List.Pairwise.nil)

theorem countP_key_le_one (l : List FeatureUsage) (k : String) (h : NodupKeys l) :
    l.countP (fun f => f.key == k) ≤ 1 := by
  induction l with
  | nil => simp
  | cons a rest ih =>
    obtain ⟨hfa, htail⟩ := List.pairwise_cons.mp h
    rw [List.countP_cons]
    by_cases ha : (a.key == k) = true
    · rw [if_pos ha]
      have hzero : rest.countP (fun f => f.key == k) = 0 := by
        rw [List.countP_eq_zero]
        intro b hb
        simp only [beq_iff_eq]
        intro hbk
        rw [beq_iff_eq] at ha
        exact hfa b hb (by rw [ha, hbk])
      rw [hzero]
    · rw [if_neg ha]
      have := ih htail
      omega

/-- C6: the inventory holds every key at most once, in particular at most
one selector:nesting feature however many nesting constructs appear; an
addFeature call whose key is already present leaves the inventory
unchanged (first occurrence wins); extraction is a pure function of its
input. -/
theorem claim_c6_inventory_dedup (parse : String → Option Stylesheet) (css : String) :
    NodupKeys (collectFeatures parse css)
    ∧ (collectFeatures parse css).countP (fun f => f.key == "selector:nesting") ≤ 1
    ∧ (∀ (l : List FeatureUsage) (f : FeatureUsage),
        (∃ g ∈ l, g.key = f.key) → addFeature l f = l)
    ∧ collectFeatures parse css = collectFeatures parse css := by
  refine ⟨collectFeatures_nodup parse css,
    countP_key_le_one _ _ (collectFeatures_nodup parse css), ?_, rfl⟩
  intro l f hex
  unfold addFeature
  rw [if_pos]
  rw [List.any_eq_true]
  obtain ⟨g, hg, hk⟩ := hex
  exact ⟨g, hg, by rw [beq_iff_eq]; exact hk⟩

/-- A syntax tree with a repeated declaration and two nesting-selector
nodes, to witness deduplication. -/
def dup_parse : String → Option Stylesheet :=
  fun _ => some { decls := [{ property := "gap", value := [.ident "normal"] },
    { property := "gap", value := [.ident "normal"] }], nestingNodes := 2 }

/-- Witness for C6 at a concrete duplicated input. -/
theorem claim_c6_witness :
    NodupKeys (collectFeatures dup_parse "x")
    ∧ (collectFeatures dup_parse "x").countP (fun f => f.key == "selector:nesting") ≤ 1
    ∧ addFeature [propFeature "gap"] (propFeature "gap") = [propFeature "gap"] :=
  ⟨(claim_c6_inventory_dedup dup_parse "x").1,
   (claim_c6_inventory_dedup dup_parse "x").2.1,
   (claim_c6_inventory_dedup dup_parse "x").2.2.1 _ _
     ⟨propFeature "gap", List.mem_singleton.mpr rfl, rfl⟩⟩

/-- C5: a browser with any unsupported feature gets an absent minimum
version whatever the accumulated minimum; otherwise an accumulated
minimum of 0 formats as the sentinel "all", and any other value as the
integer string when whole, else the one-decimal string. -/
theorem claim_c5_min_version_format (bcd : BCD) (parse : String → Option Stylesheet)
    (css : String) (b : BrowserKey) (h : strTrim css ≠ "") :
    (analyzeCssSupport bcd parse css).minimumVersions.get b
        = formatVersion ((aggregate bcd (collectFeatures parse css)).minimum.get b)
            ((aggregate bcd (collectFeatures parse css)).unsupported.get b)
    ∧ ((aggregate bcd (collectFeatures parse css)).unsupported.get b ≠ [] →
        (analyzeCssSupport bcd parse css).minimumVersions.get b = none)
    ∧ ((aggregate bcd (collectFeatures parse css)).unsupported.get b = [] →
        (aggregate bcd (collectFeatures parse css)).minimum.get b = 0 →
        (analyzeCssSupport bcd parse css).minimumVersions.get b = some "all")
    ∧ ((aggregate bcd (collectFeatures parse css)).unsupported.get b = [] →
        (aggregate bcd (collectFeatures parse css)).minimum.get b ≠ 0 →
        (analyzeCssSupport bcd parse css).minimumVersions.get b
          = some (fmtNum ((aggregate bcd (collectFeatures parse css)).minimum.get b)))
    ∧ (∀ q : ℚ, q.den = 1 → fmtNum q = toString q.num)
    ∧ (∀ q : ℚ, q.den ≠ 1 → fmtNum q = toFixed1 q) := by
  have hmain : (analyzeCssSupport bcd parse css).minimumVersions.get b
      = formatVersion ((aggregate bcd (collectFeatures parse css)).minimum.get b)
          ((aggregate bcd (collectFeatures parse css)).unsupported.get b) := by
    unfold analyzeCssSupport
    dsimp only
    rw [if_neg h]
    cases b <;> rfl
  refine ⟨hmain, ?_, ?_, ?_, ?_, ?_⟩
  · intro hne
    rw [hmain]
    unfold formatVersion
    rw [if_pos hne]
  · intro he h0
    rw [hmain]
    unfold formatVersion
    rw [if_neg (fun hne => hne he), if_pos h0]
  · intro he h0
    rw [hmain]
    unfold formatVersion
    rw [if_neg (fun hne => hne he), if_neg h0]
  · intro q hq
    unfold fmtNum
    rw [if_pos hq]
  · intro q hq
    unfold fmtNum
    rw [if_neg hq]

/-- Scenario C dataset: one property supported since 120 on chrome, never
on firefox, since 15 on safari. -/
def scenarioC_bcd : BCD :=
  { properties := [("overflow-clip-margin",
      .mk (some ⟨⟨.single (plainStatement (.str "120")),
        .single (plainStatement (.bool false)),
        .single (plainStatement (.str "15"))⟩⟩) [])]
    selectors_nesting := none
    browsers := ⟨none, none, none⟩ }

/-- Scenario C syntax tree: the one declaration. -/
def scenarioC_parse : String → Option Stylesheet :=
  fun _ => some { decls := [{ property := "overflow-clip-margin", value := [] }]
                  nestingNodes := 0 }

/-- Witness for C5: firefox (unsupported list non-empty) gets an absent
minimum, chrome formats its accumulated 120 as "120". -/
theorem claim_c5_witness :
    (analyzeCssSupport scenarioC_bcd scenarioC_parse "p{}").minimumVersions.get .firefox = none
    ∧ (analyzeCssSupport scenarioC_bcd scenarioC_parse "p{}").minimumVersions.get .chrome
      = some "120" := by
  refine ⟨(claim_c5_min_version_format scenarioC_bcd scenarioC_parse "p{}" .firefox
    (by decide)).2.1 (by decide), ?_⟩
  have h := (claim_c5_min_version_format scenarioC_bcd scenarioC_parse "p{}" .chrome
    (by decide)).2.2.2.1 (by decide) (by decide)
  rw [h]
  decide

/-- A dataset whose one property has added-version true everywhere. -/
def universal_bcd : BCD :=
  { properties := [("display", singleEntry (.bool true))]
    selectors_nesting := none
    browsers := ⟨none, none, none⟩ }

/-- A syntax tree with the one declaration of that property. -/
def universal_parse : String → Option Stylesheet :=
  fun _ => some { decls := [{ property := "display", value := [] }], nestingNodes := 0 }

/-- Counterexample to C1: on a universally supported feature the minimum
versions do format as "all", but the reason names the feature as limiting
since version 0 instead of stating that no limiting feature was found
(the update runs on version greater than or equal to the running
minimum, and 0 is equal to the initial minimum). -/
theorem claim_c1_counterexample :
    (analyzeCssSupport universal_bcd universal_parse "display:flex").minimumVersions
      = ⟨some "all", some "all", some "all"⟩
    ∧ (analyzeCssSupport universal_bcd universal_parse "display:flex").reasons.get .chrome
      = "Ограничивает: display (с версии 0)"
    ∧ (analyzeCssSupport universal_bcd universal_parse "display:flex").reasons.get .chrome
      ≠ "Ограничивающих фич не найдено" :=
  ⟨by decide, by decide, by decide⟩

/-- C1 as amended: when the single extracted feature resolves, for every
browser, to a picked statement with added-version true, every browser
formats its minimum version as the sentinel "all", and every reason
names that feature as limiting since version 0 (not the
no-limiting-feature text). -/
theorem claim_c1_universal_support (bcd : BCD) (parse : String → Option Stylesheet)
    (css : String) (f : FeatureUsage) (cd : CompatData) (ce : CompatEntry)
    (hcss : strTrim css ≠ "")
    (hfeat : collectFeatures parse css = [f])
    (hlabel : f.label ≠ "")
    (hres : resolveFeatureCompat bcd f = some cd)
    (hce : cd.compat = some ce)
    (hpick : ∀ b : BrowserKey, ∃ stm : CompatStatement,
      pickSupportStatement (ce.support.get b) = some stm ∧ stm.version_added = .bool true) :
    ∀ b : BrowserKey,
      (analyzeCssSupport bcd parse css).minimumVersions.get b = some "all"
      ∧ (analyzeCssSupport bcd parse css).reasons.get b
          = "Ограничивает: " ++ f.label ++ " (с версии 0)" := by
  intro b
  obtain ⟨stm, hp, hv⟩ := hpick b
  have hout : featureOutcome bcd b f = .ver 0 f.label := by
    simp only [featureOutcome, hres, hce, browserOutcome, hp, statementOutcome, hv,
      normalizeVersion]
  have hagg : bproj (aggregate bcd (collectFeatures parse css)) b
      = ⟨0, [], some f.label, some 0⟩ := by
    rw [hfeat, bproj_aggregate]
    simp [hout, bstep]
  have hmin : (aggregate bcd (collectFeatures parse css)).minimum.get b = 0 :=
    congrArg BState.min hagg
  have hunsup : (aggregate bcd (collectFeatures parse css)).unsupported.get b = [] :=
    congrArg BState.unsup hagg
  have hlf : (aggregate bcd (collectFeatures parse css)).limitingFeature.get b = some f.label :=
    congrArg BState.limF hagg
  have hlv : (aggregate bcd (collectFeatures parse css)).limitingVersion.get b = some 0 :=
    congrArg BState.limV hagg
  constructor
  · have hmain : (analyzeCssSupport bcd parse css).minimumVersions.get b
        = formatVersion ((aggregate bcd (collectFeatures parse css)).minimum.get b)
            ((aggregate bcd (collectFeatures parse css)).unsupported.get b) := by
      unfold analyzeCssSupport
      dsimp only
      rw [if_neg hcss]
      cases b <;> rfl
    rw [hmain, hmin, hunsup]
    rfl
  · have hmain : (analyzeCssSupport bcd parse css).reasons.get b
        = buildReason b (aggregate bcd (collectFeatures parse css)).unsupported
            (aggregate bcd (collectFeatures parse css)).limitingFeature
            (aggregate bcd (collectFeatures parse css)).limitingVersion := by
      unfold analyzeCssSupport
      dsimp only
      rw [if_neg hcss]
      cases b <;> rfl
    rw [hmain]
    unfold buildReason
    rw [hunsup, hlf, hlv]
    simp only [hlabel, if_false, reduceIte]
    have h0 : fmtNum 0 = "0" := rfl
    rw [h0, String.append_assoc, String.append_assoc]
    have h1 : (" (с версии " ++ ("0" ++ ")") : String) = " (с версии 0)" := rfl
    rw [h1]

/-- Witness for the amended C1 at the universal-support dataset. -/
theorem claim_c1_witness :
    (analyzeCssSupport universal_bcd universal_parse "display:flex").minimumVersions.get .chrome
      = some "all"
    ∧ (analyzeCssSupport universal_bcd universal_parse "display:flex").reasons.get .chrome
      = "Ограничивает: " ++ (propFeature "display").label ++ " (с версии 0)" :=
  claim_c1_universal_support universal_bcd universal_parse "display:flex"
    (propFeature "display") (singleEntry (.bool true))
    ⟨⟨.single (plainStatement (.bool true)), .single (plainStatement (.bool true)),
      .single (plainStatement (.bool true))⟩⟩
    (by decide) (by decide) (by decide) rfl rfl
    (fun b => ⟨plainStatement (.bool true), by cases b <;> rfl, rfl⟩) .chrome

/-- The disambiguation policy in the tiered formulation of the
specification, with the truthiness condition the code actually applies:
the first plain unconditional statement with a truthy added-version if
one exists, else the first statement whose added-version is not null if
one exists, else the first statement (null only on the empty list). -/
def pickSupportStatementSpec (l : List CompatStatement) : Option CompatStatement :=
  if l.any (fun e => !e.flags && !e.pfx && !e.alternative_name && e.version_added.truthy) then
    l.find? (fun e => !e.flags && !e.pfx && !e.alternative_name && e.version_added.truthy)
  else if l.any (fun e => e.version_added ≠ .null) then
    l.find? (fun e => e.version_added ≠ .null)
  else l.head?

/-- The statement on which the claimed rule and the code disagree: an
empty-string added-version is neither null nor false, yet falsy. -/
def emptyAddedStatement : CompatStatement := plainStatement (.str "")

/-- A plain statement with added-version "5". -/
def fiveStatement : CompatStatement := plainStatement (.str "5")

/-- Counterexample to C3: the first listed statement has no flags, no
prefix, no alternative name and an added-version that is neither null nor
false (the empty string), so the claimed rule returns it; the code skips
it because the empty string is falsy and returns the second statement. -/
theorem claim_c3_counterexample :
    emptyAddedStatement.flags = false
    ∧ emptyAddedStatement.pfx = false
    ∧ emptyAddedStatement.alternative_name = false
    ∧ emptyAddedStatement.version_added ≠ .null
    ∧ emptyAddedStatement.version_added ≠ .bool false
    ∧ pickSupportStatement (.list [emptyAddedStatement, fiveStatement]) = some fiveStatement
    ∧ fiveStatement ≠ emptyAddedStatement := by decide

/-- A non-empty statement list is never picked to null: every fallback
tier ends at the first statement. -/
theorem pickSupportStatement_cons_ne_none (a : CompatStatement) (t : List CompatStatement) :
    pickSupportStatement (.list (a :: t)) ≠ none := by
  simp only [pickSupportStatement]
  cases h1 : (a :: t).find? (fun e => !e.flags && !e.pfx && !e.alternative_name &&
      e.version_added.truthy) with
  | some p => simp
  | none =>
    simp only
    cases h2 : (a :: t).find? (fun e => decide (e.version_added ≠ .null)) with
    | some p => simp
    | none => simp

/-- C3 as amended: on a list the picker returns the first statement with
no flags, no prefix, no alternative name and a truthy (non-null,
non-false, non-empty-string) added-version if one exists; otherwise the
first statement whose added-version is not null; otherwise the first
statement, with null exactly on the empty list.  A missing slot gives
null and a single statement is returned as is. -/
theorem claim_c3_pick_support_statement (l : List CompatStatement) (s : CompatStatement) :
    pickSupportStatement (.list l) = pickSupportStatementSpec l
    ∧ (pickSupportStatement (.list l) = none ↔ l = [])
    ∧ pickSupportStatement .undef = none
    ∧ pickSupportStatement (.single s) = some s := by
  refine ⟨?_, ?_, rfl, rfl⟩
  · simp only [pickSupportStatement, pickSupportStatementSpec]
    cases h1 : l.find? (fun e => !e.flags && !e.pfx && !e.alternative_name &&
        e.version_added.truthy) with
    | some p =>
      have ha : l.any (fun e => !e.flags && !e.pfx && !e.alternative_name &&
          e.version_added.truthy) = true := by
        rw [List.any_eq_true]
        refine ⟨p, List.mem_of_find?_eq_some h1, ?_⟩
        simpa using List.find?_some h1
      rw [ha]
      simp
    | none =>
      have ha : l.any (fun e => !e.flags && !e.pfx && !e.alternative_name &&
          e.version_added.truthy) = false := by
        rw [List.any_eq_false]
        intro x hx
        exact List.find?_eq_none.mp h1 x hx
      rw [ha]
      simp only [Bool.false_eq_true, if_false]
      cases h2 : l.find? (fun e => decide (e.version_added ≠ .null)) with
      | some p =>
        have hb : l.any (fun e => decide (e.version_added ≠ .null)) = true := by
          rw [List.any_eq_true]
          refine ⟨p, List.mem_of_find?_eq_some h2, ?_⟩
          simpa using List.find?_some h2
        rw [hb]
        simp
      | none =>
        have hb : l.any (fun e => decide (e.version_added ≠ .null)) = false := by
          rw [List.any_eq_false]
          intro x hx
          exact List.find?_eq_none.mp h2 x hx
        rw [hb]
        simp
  · cases l with
    | nil => simp [pickSupportStatement]
    | cons a t =>
      exact iff_of_false (pickSupportStatement_cons_ne_none a t) (by simp)

/-- Witness for the amended C3 at a two-statement list with a flagged
head. -/
theorem claim_c3_witness :
    pickSupportStatement (.list [⟨.str "4", true, false, false⟩, fiveStatement])
      = pickSupportStatementSpec [⟨.str "4", true, false, false⟩, fiveStatement]
    ∧ pickSupportStatement (.single fiveStatement) = some fiveStatement :=
  ⟨(claim_c3_pick_support_statement [⟨.str "4", true, false, false⟩, fiveStatement]
      fiveStatement).1,
   (claim_c3_pick_support_statement [⟨.str "4", true, false, false⟩, fiveStatement]
      fiveStatement).2.2.2⟩

/-- An object-valued sub-entry without a compat block. -/
def plainValueEntry : CompatData := .mk none []

/-- An object-valued sub-entry carrying a compat block. -/
def suffixedValueEntry : CompatData := .mk (some ⟨⟨.undef, .undef, .undef⟩⟩) []

/-- A property table holding both the plain and the function-suffixed
sub-entry for the value flex. -/
def twoCandidate_bcd : BCD :=
  { properties := [("display",
      .mk none [("flex", some plainValueEntry), ("flex()", some suffixedValueEntry)])]
    selectors_nesting := none
    browsers := ⟨none, none, none⟩ }

/-- Counterexample to C2: for the function-call feature display: flex()
both candidates name object-valued entries, the candidate list puts the
plain form first, and the resolver returns the plain entry, not the
function-suffixed one the claim promises. -/
theorem claim_c2_counterexample :
    buildValueCandidates "flex" (some .function) = ["flex", "flex()"]
    ∧ lookupField (.mk none [("flex", some plainValueEntry), ("flex()", some suffixedValueEntry)])
        "flex()" = some (some suffixedValueEntry)
    ∧ resolveFeatureCompat twoCandidate_bcd (funcFeature "display" "flex") = some plainValueEntry
    ∧ plainValueEntry ≠ suffixedValueEntry := by
  refine ⟨by decide, rfl, rfl, ?_⟩
  intro h
  injection h with h1 h2
  exact Option.noConfusion h1

theorem string_append_parens_ne (s : String) : s ++ "()" ≠ s := by
  intro h
  have hlen := congrArg String.length h
  rw [String.length_append] at hlen
  have h2 : ("()" : String).length = 2 := rfl
  omega

/-- C2 as amended: for a function-call property-value feature the
candidate list is the plain normalized form first, then the
function-suffixed form, and the resolver returns the first candidate in
that order naming an object-valued entry under the owning property. -/
theorem claim_c2_candidate_order (bcd : BCD) (p v : String) (e : CompatData)
    (hp : p ≠ "") (hv : v ≠ "")
    (he : (bcd.properties.find? (fun x => x.1 == p)).map (fun x => x.2) = some e) :
    buildValueCandidates v (some .function) = [toMdnKey v, toMdnKey v ++ "()"]
    ∧ resolveFeatureCompat bcd (funcFeature p v)
      = (match lookupField e (toMdnKey v) with
         | some (some cd) => some cd
         | _ =>
           match lookupField e (toMdnKey v ++ "()") with
           | some (some cd) => some cd
           | _ => none) := by
  have hcand : buildValueCandidates v (some .function) = [toMdnKey v, toMdnKey v ++ "()"] := by
    unfold buildValueCandidates
    dsimp only
    rw [if_pos rfl,
      if_neg (fun hmem => string_append_parens_ne (toMdnKey v) (List.mem_singleton.mp hmem))]
    rfl
  refine ⟨hcand, ?_⟩
  have hresolve : resolveFeatureCompat bcd (funcFeature p v)
      = findFirstObject e (buildValueCandidates v (some .function)) := by
    simp only [resolveFeatureCompat, funcFeature, optTruthy, hp, hv, if_false, he,
      reduceIte]
  rw [hresolve, hcand]
  cases h1 : lookupField e (toMdnKey v) with
  | some o1 =>
    cases o1 with
    | some cd => simp only [findFirstObject, h1]
    | none =>
      cases h2 : lookupField e (toMdnKey v ++ "()") with
      | some o2 =>
        cases o2 with
        | some cd => simp only [findFirstObject, h1, h2]
        | none => simp only [findFirstObject, h1, h2]
      | none => simp only [findFirstObject, h1, h2]
  | none =>
    cases h2 : lookupField e (toMdnKey v ++ "()") with
    | some o2 =>
      cases o2 with
      | some cd => simp only [findFirstObject, h1, h2]
      | none => simp only [findFirstObject, h1, h2]
    | none => simp only [findFirstObject, h1, h2]

/-- Witness for the amended C2 at the two-candidate dataset. -/
theorem claim_c2_witness :
    buildValueCandidates "flex" (some .function) = [toMdnKey "flex", toMdnKey "flex" ++ "()"] :=
  (claim_c2_candidate_order twoCandidate_bcd "display" "flex"
    (.mk none [("flex", some plainValueEntry), ("flex()", some suffixedValueEntry)])
    (by decide) (by decide) rfl).1

/-! ## Order facts about the release comparators -/

theorem lexCmpChars_self (a : List Char) : lexCmpChars a a = 0 := by
  induction a with
  | nil => rfl
  | cons c cs ih => simp [lexCmpChars, lt_irrefl, ih]

theorem lexCmpChars_antisymm (a b : List Char) : lexCmpChars a b = -lexCmpChars b a := by
  induction a generalizing b with
  | nil => cases b <;> rfl
  | cons c cs ih =>
    cases b with
    | nil => rfl
    | cons d ds =>
      by_cases h1 : c < d
      · have h2 : ¬ d < c := asymm h1
        simp [lexCmpChars, h1, h2]
      · by_cases h2 : d < c
        · simp [lexCmpChars, h1, h2]
        · simp [lexCmpChars, h1, h2, ih ds]

theorem lexCmpChars_eq_zero (a b : List Char) (h : lexCmpChars a b = 0) : a = b := by
  induction a generalizing b with
  | nil =>
    cases b with
    | nil => rfl
    | cons d ds => exact absurd h (by simp [lexCmpChars])
  | cons c cs ih =>
    cases b with
    | nil => exact absurd h (by simp [lexCmpChars])
    | cons d ds =>
      by_cases h1 : c < d
      · rw [lexCmpChars, if_pos h1] at h
        exact absurd h (by decide)
      · by_cases h2 : d < c
        · rw [lexCmpChars, if_neg h1, if_pos h2] at h
          exact absurd h (by decide)
        · rw [lexCmpChars, if_neg h1, if_neg h2] at h
          rw [le_antisymm (not_lt.mp h2) (not_lt.mp h1), ih ds h]

theorem lexCmpChars_le_trans (a : List Char) :
    ∀ b c : List Char, lexCmpChars a b ≤ 0 → lexCmpChars b c ≤ 0 → lexCmpChars a c ≤ 0 := by
  induction a with
  | nil =>
    intro b c _ _
    cases c <;> simp [lexCmpChars]
  | cons x xs ih =>
    intro b c h1 h2
    cases b with
    | nil => exact absurd h1 (by simp [lexCmpChars])
    | cons y ys =>
      cases c with
      | nil => exact absurd h2 (by simp [lexCmpChars])
      | cons z zs =>
        rw [lexCmpChars] at h1 h2 ⊢
        by_cases hxy : x < y
        · by_cases hyz : y < z
          · rw [if_pos (lt_trans hxy hyz)]
            decide
          · by_cases hzy : z < y
            · rw [if_neg hyz, if_pos hzy] at h2
              exact absurd h2 (by decide)
            · rw [if_pos (lt_of_lt_of_le hxy (not_lt.mp hzy))]
              decide
        · by_cases hyx : y < x
          · rw [if_neg hxy, if_pos hyx] at h1
            exact absurd h1 (by decide)
          · have hxy' : x = y := le_antisymm (not_lt.mp hyx) (not_lt.mp hxy)
            rw [if_neg hxy, if_neg hyx] at h1
            by_cases hyz : y < z
            · rw [if_pos (hxy' ▸ hyz)]
              decide
            · by_cases hzy : z < y
              · rw [if_neg hyz, if_pos hzy] at h2
                exact absurd h2 (by decide)
              · have hyz' : y = z := le_antisymm (not_lt.mp hzy) (not_lt.mp hyz)
                rw [if_neg (hxy' ▸ hyz : ¬ x < z), if_neg (hxy' ▸ hzy : ¬ z < x)]
                rw [if_neg hyz, if_neg hzy] at h2
                exact ih ys zs h1 h2

theorem strCmp_self (a : String) : strCmp a a = 0 := lexCmpChars_self a.data

theorem strCmp_antisymm (a b : String) : strCmp a b = -strCmp b a :=
  lexCmpChars_antisymm a.data b.data

theorem strCmp_eq_zero (a b : String) (h : strCmp a b = 0) : a = b := by
  cases a with
  | mk da =>
    cases b with
    | mk db =>
      exact congrArg String.mk (lexCmpChars_eq_zero da db h)

theorem strCmp_le_trans (a b c : String) (h1 : strCmp a b ≤ 0) (h2 : strCmp b c ≤ 0) :
    strCmp a c ≤ 0 :=
  lexCmpChars_le_trans a.data b.data c.data h1 h2

/-- A version string whose normalization is not NaN (every real dataset
version satisfies this; NaN needs a cleaned string of periods only). -/
def GoodVer (x : String × String) : Prop := normalizeVersion (.str x.1) ≠ .nan

/-- The numeric value of a version string under the `?? -1` default. -/
def vq (s : String) : ℚ :=
  match normalizeVersion (.str s) with
  | .num q => q
  | .null => -1
  | .nan => 0

theorem verNumJs_good (s : String) (h : normalizeVersion (.str s) ≠ .nan) :
    verNumJs s = some (vq s) := by
  unfold verNumJs vq
  cases hn : normalizeVersion (.str s) with
  | num q => rfl
  | nan => exact absurd hn h
  | null => rfl

theorem cmpStable_good_eq (x y : String × String) (hx : GoodVer x) (hy : GoodVer y) :
    cmpStable x y
      = if vq x.1 < vq y.1 then -1 else if vq y.1 < vq x.1 then 1 else strCmp x.2 y.2 := by
  unfold cmpStable
  rw [verNumJs_good x.1 hx, verNumJs_good y.1 hy]

theorem cmpStable_refl (x : String × String) : cmpStable x x = 0 := by
  unfold cmpStable
  cases verNumJs x.1 with
  | none => exact strCmp_self x.2
  | some a => simp [lt_irrefl, strCmp_self]

theorem cmpStable_total (x y : String × String) (hx : GoodVer x) (hy : GoodVer y)
    (h : ¬ cmpStable x y < 0) : cmpStable y x ≤ 0 := by
  rw [cmpStable_good_eq x y hx hy] at h
  rw [cmpStable_good_eq y x hy hx]
  by_cases h1 : vq x.1 < vq y.1
  · rw [if_pos h1] at h
    exact absurd (by decide : (-1 : Int) < 0) h
  · by_cases h2 : vq y.1 < vq x.1
    · rw [if_pos h2]
      decide
    · rw [if_neg h1, if_neg h2] at h
      rw [if_neg h2, if_neg h1, strCmp_antisymm y.2 x.2]
      omega

theorem cmpStable_trans (x y z : String × String) (hx : GoodVer x) (hy : GoodVer y)
    (hz : GoodVer z) (h1 : cmpStable x y < 0) (h2 : cmpStable y z ≤ 0) :
    cmpStable x z ≤ 0 := by
  rw [cmpStable_good_eq x y hx hy] at h1
  rw [cmpStable_good_eq y z hy hz] at h2
  rw [cmpStable_good_eq x z hx hz]
  by_cases a1 : vq x.1 < vq y.1
  · by_cases b1 : vq y.1 < vq z.1
    · rw [if_pos (lt_trans a1 b1)]
      decide
    · by_cases b2 : vq z.1 < vq y.1
      · rw [if_neg b1, if_pos b2] at h2
        exact absurd h2 (by decide)
      · rw [if_pos (lt_of_lt_of_le a1 (not_lt.mp b2))]
        decide
  · by_cases a2 : vq y.1 < vq x.1
    · rw [if_neg a1, if_pos a2] at h1
      exact absurd h1 (by decide)
    · have haeq : vq x.1 = vq y.1 := le_antisymm (not_lt.mp a2) (not_lt.mp a1)
      rw [if_neg a1, if_neg a2] at h1
      by_cases b1 : vq y.1 < vq z.1
      · rw [if_pos (haeq ▸ b1)]
        decide
      · by_cases b2 : vq z.1 < vq y.1
        · rw [if_neg b1, if_pos b2] at h2
          exact absurd h2 (by decide)
        · rw [if_neg b1, if_neg b2] at h2
          rw [if_neg (haeq ▸ b1 : ¬ vq x.1 < vq z.1), if_neg (haeq ▸ b2 : ¬ vq z.1 < vq x.1)]
          exact strCmp_le_trans _ _ _ (le_of_lt h1) h2

theorem cmpAll_refl (x : String × String) : cmpAll x x = 0 := by
  unfold cmpAll
  rw [if_neg (fun hh => hh (strCmp_self x.2))]
  cases verNumJs x.1 with
  | none => rfl
  | some a => simp [lt_irrefl]

theorem cmpAll_total (x y : String × String) (h : ¬ cmpAll x y < 0) : cmpAll y x ≤ 0 := by
  unfold cmpAll at h ⊢
  by_cases d1 : strCmp x.2 y.2 ≠ 0
  · rw [if_pos d1] at h
    have d2 : strCmp y.2 x.2 ≠ 0 := by
      rw [strCmp_antisymm y.2 x.2]
      omega
    rw [if_pos d2, strCmp_antisymm y.2 x.2]
    omega
  · push_neg at d1
    have d2 : ¬ strCmp y.2 x.2 ≠ 0 := by
      rw [strCmp_antisymm y.2 x.2, d1]
      decide
    rw [if_neg (fun hh => hh d1)] at h
    rw [if_neg d2]
    cases ha : verNumJs x.1 with
    | none =>
      rw [ha] at h
      cases hb : verNumJs y.1 with
      | none =>
        dsimp only
        decide
      | some b =>
        dsimp only
        decide
    | some a =>
      rw [ha] at h
      cases hb : verNumJs y.1 with
      | none =>
        dsimp only
        decide
      | some b =>
        rw [hb] at h
        dsimp only at h ⊢
        by_cases hab : a < b
        · rw [if_pos hab] at h
          exact absurd (by decide : (-1 : Int) < 0) h
        · by_cases hba : b < a
          · rw [if_pos hba]
            decide
          · rw [if_neg hba, if_neg hab]

theorem cmpAll_trans (x y z : String × String) (h1 : cmpAll x y < 0) (h2 : cmpAll y z ≤ 0) :
    cmpAll x z ≤ 0 := by
  unfold cmpAll at h1 h2 ⊢
  by_cases d1 : strCmp x.2 y.2 ≠ 0
  · rw [if_pos d1] at h1
    by_cases d2 : strCmp y.2 z.2 ≠ 0
    · rw [if_pos d2] at h2
      have hxz : strCmp x.2 z.2 ≤ 0 := strCmp_le_trans _ _ _ (le_of_lt h1) h2
      have hxzne : strCmp x.2 z.2 ≠ 0 := by
        intro h0
        have hxe : x.2 = z.2 := strCmp_eq_zero _ _ h0
        rw [← hxe, strCmp_antisymm y.2 x.2] at h2
        omega
      rw [if_pos hxzne]
      exact hxz
    · push_neg at d2
      have hyz : y.2 = z.2 := strCmp_eq_zero _ _ d2
      have hlt : strCmp x.2 z.2 < 0 := by
        rw [← hyz]
        exact h1
      rw [if_pos (by omega : strCmp x.2 z.2 ≠ 0)]
      exact le_of_lt hlt
  · push_neg at d1
    have hxy : x.2 = y.2 := strCmp_eq_zero _ _ d1
    rw [if_neg (fun hh => hh d1)] at h1
    by_cases d2 : strCmp y.2 z.2 ≠ 0
    · rw [if_pos d2] at h2
      have he : strCmp x.2 z.2 = strCmp y.2 z.2 := by rw [hxy]
      rw [if_pos (by omega : strCmp x.2 z.2 ≠ 0), he]
      exact h2
    · push_neg at d2
      have hyz : y.2 = z.2 := strCmp_eq_zero _ _ d2
      have hxz0 : strCmp x.2 z.2 = 0 := by
        rw [hxy, hyz]
        exact strCmp_self z.2
      rw [if_neg (fun hh => hh d2)] at h2
      rw [if_neg (fun hh => hh hxz0)]
      cases ha : verNumJs x.1 with
      | none => exact le_refl 0
      | some a =>
        rw [ha] at h1
        cases hb : verNumJs y.1 with
        | none =>
          rw [hb] at h1
          dsimp only at h1
          exact absurd h1 (by decide)
        | some b =>
          rw [hb] at h1 h2
          dsimp only at h1
          have hab : a < b := by
            by_cases hab : a < b
            · exact hab
            · rw [if_neg hab] at h1
              by_cases hba : b < a
              · rw [if_pos hba] at h1
                exact absurd h1 (by decide)
              · rw [if_neg hba] at h1
                exact absurd h1 (by decide)
          cases hc : verNumJs z.1 with
          | none =>
            dsimp only
            decide
          | some c =>
            rw [hc] at h2
            dsimp only at h2 ⊢
            have hbc : ¬ c < b := by
              intro hcb
              rw [if_neg (asymm hcb), if_pos hcb] at h2
              exact absurd h2 (by decide)
            have hac : a < c := lt_of_lt_of_le hab (not_lt.mp hbc)
            rw [if_pos hac]
            decide

/-! ## Sortedness of the modelled sort -/

theorem insertSorted_mem (c : α → α → Int) (x : α) (l : List α) (y : α) :
    y ∈ insertSorted c x l ↔ y = x ∨ y ∈ l := by
  induction l with
  | nil => simp [insertSorted]
  | cons z zs ih =>
    unfold insertSorted
    by_cases h : c x z < 0
    · rw [if_pos h]
      simp [List.mem_cons]
    · rw [if_neg h]
      simp only [List.mem_cons, ih]
      tauto

theorem insertSorted_pairwise (c : α → α → Int) (P : α → Prop)
    (hTotal : ∀ a b, P a → P b → ¬ c a b < 0 → c b a ≤ 0)
    (hTrans : ∀ a b d, P a → P b → P d → c a b < 0 → c b d ≤ 0 → c a d ≤ 0)
    (x : α) (hx : P x) :
    ∀ l : List α, (∀ y ∈ l, P y) → List.Pairwise (fun a b => c a b ≤ 0) l →
      List.Pairwise (fun a b => c a b ≤ 0) (insertSorted c x l) := by
  intro l
  induction l with
  | nil =>
    intro _ _
    simp [insertSorted]
  | cons z zs ih =>
    intro hP hpw
    obtain ⟨hzall, hpzs⟩ := List.pairwise_cons.mp hpw
    unfold insertSorted
    by_cases h : c x z < 0
    · rw [if_pos h]
      rw [List.pairwise_cons]
      refine ⟨?_, hpw⟩
      intro b hb
      rcases List.mem_cons.mp hb with rfl | hbzs
      · exact le_of_lt h
      · exact hTrans x z b hx (hP z (List.mem_cons_self _ _))
          (hP b (List.mem_cons_of_mem _ hbzs)) h (hzall b hbzs)
    · rw [if_neg h]
      rw [List.pairwise_cons]
      refine ⟨?_, ih (fun y hy => hP y (List.mem_cons_of_mem _ hy)) hpzs⟩
      intro b hb
      rcases (insertSorted_mem c x zs b).mp hb with rfl | hbzs
      · exact hTotal b z hx (hP z (List.mem_cons_self _ _)) h
      · exact hzall b hbzs

theorem foldl_insertSorted_invariant (c : α → α → Int) (P : α → Prop)
    (hTotal : ∀ a b, P a → P b → ¬ c a b < 0 → c b a ≤ 0)
    (hTrans : ∀ a b d, P a → P b → P d → c a b < 0 → c b d ≤ 0 → c a d ≤ 0) :
    ∀ (l acc : List α), (∀ y ∈ l, P y) → (∀ y ∈ acc, P y) →
      List.Pairwise (fun a b => c a b ≤ 0) acc →
      (∀ y ∈ l.foldl (fun a x => insertSorted c x a) acc, P y)
      ∧ List.Pairwise (fun a b => c a b ≤ 0) (l.foldl (fun a x => insertSorted c x a) acc) := by
  intro l
  induction l with
  | nil =>
    intro acc _ h2 h3
    exact ⟨h2, h3⟩
  | cons x xs ih =>
    intro acc hl hacc hpw
    have hx : P x := hl x (List.mem_cons_self _ _)
    have hacc' : ∀ y ∈ insertSorted c x acc, P y := by
      intro y hy
      rcases (insertSorted_mem c x acc y).mp hy with rfl | hyacc
      · exact hx
      · exact hacc y hyacc
    exact ih (insertSorted c x acc) (fun y hy => hl y (List.mem_cons_of_mem _ hy)) hacc'
      (insertSorted_pairwise c P hTotal hTrans x hx acc hacc hpw)

theorem jsSort_pairwise (c : α → α → Int) (P : α → Prop)
    (hTotal : ∀ a b, P a → P b → ¬ c a b < 0 → c b a ≤ 0)
    (hTrans : ∀ a b d, P a → P b → P d → c a b < 0 → c b d ≤ 0 → c a d ≤ 0)
    (l : List α) (hl : ∀ y ∈ l, P y) :
    List.Pairwise (fun a b => c a b ≤ 0) (jsSort c l) :=
  (foldl_insertSorted_invariant c P hTotal hTrans l [] hl (by simp) List.Pairwise.nil).2

theorem jsSort_mem (c : α → α → Int) (l : List α) (y : α) : y ∈ jsSort c l ↔ y ∈ l := by
  unfold jsSort
  have hgen : ∀ (l acc : List α) (y : α),
      y ∈ l.foldl (fun a x => insertSorted c x a) acc ↔ y ∈ acc ∨ y ∈ l := by
    intro l
    induction l with
    | nil => simp
    | cons x xs ih =>
      intro acc y
      rw [List.foldl_cons, ih]
      rw [insertSorted_mem]
      simp only [List.mem_cons]
      tauto
  rw [hgen l [] y]
  simp

theorem jsSort_ne_nil (c : α → α → Int) (a : α) (l : List α) (h : a ∈ l) :
    jsSort c l ≠ [] := by
  intro hnil
  have := (jsSort_mem c l a).mpr h
  rw [hnil] at this
  exact List.not_mem_nil a this

theorem getLast?_pairwise_rel {R : α → α → Prop} :
    ∀ (l : List α), List.Pairwise R l → ∀ m, l.getLast? = some m → ∀ x ∈ l, R x m ∨ x = m := by
  intro l
  induction l with
  | nil =>
    intro _ m hm
    exact absurd hm (by simp)
  | cons a t ih =>
    intro hpw m hm x hx
    obtain ⟨ha, hpt⟩ := List.pairwise_cons.mp hpw
    cases t with
    | nil =>
      have hma : m = a := by simpa using hm.symm
      rcases List.mem_singleton.mp hx with rfl
      right
      rw [hma]
    | cons b u =>
      have hm' : (b :: u).getLast? = some m := by
        rw [← List.getLast?_cons_cons]
        exact hm
      rcases List.mem_cons.mp hx with rfl | hxt
      · exact Or.inl (ha m (List.mem_of_mem_getLast? hm'))
      · exact ih hpt m hm' x hxt

/-- A release row flagged as the current stable channel. -/
def isCurrentRelease (p : String × BrowserRelease) : Bool :=
  p.2.status = some "current"

/-- The release date under the `?? ''` default. -/
def releaseDateOf (p : String × BrowserRelease) : String :=
  p.2.release_date.getD ""

/-- Scenario F: two identically dated releases, neither current. -/
def scenarioF_releases : List (String × BrowserRelease) :=
  [("99", { status := none, release_date := some "2024-01-01" }),
   ("100", { status := none, release_date := some "2024-01-01" })]

theorem getLatest_cons_ne_none (a : String × BrowserRelease)
    (t : List (String × BrowserRelease)) :
    getLatestVersionFromReleases (some (a :: t)) ≠ none := by
  simp only [getLatestVersionFromReleases]
  by_cases hlen : (((a :: t).filter (fun p => p.2.status = some "current")).map
      (fun p => (p.1, p.2.release_date.getD ""))).length > 0
  · rw [if_pos hlen]
    obtain ⟨x, hx⟩ : ∃ x, x ∈ ((a :: t).filter (fun p => p.2.status = some "current")).map
        (fun p => (p.1, p.2.release_date.getD "")) := by
      cases he : ((a :: t).filter (fun p => p.2.status = some "current")).map
          (fun p => (p.1, p.2.release_date.getD "")) with
      | nil => rw [he] at hlen; simp at hlen
      | cons b u => exact ⟨b, he ▸ List.mem_cons_self b u⟩
    have hne := jsSort_ne_nil cmpStable x _ hx
    cases hgl : (jsSort cmpStable (((a :: t).filter (fun p => p.2.status = some "current")).map
        (fun p => (p.1, p.2.release_date.getD "")))).getLast? with
    | none => exact absurd (List.getLast?_eq_none_iff.mp hgl) hne
    | some m => simp [hgl]
  · rw [if_neg hlen]
    have hx : (a.1, a.2.release_date.getD "") ∈ (a :: t).map
        (fun p => (p.1, p.2.release_date.getD "")) := by
      rw [List.mem_map]
      exact ⟨a, List.mem_cons_self _ _, rfl⟩
    have hne := jsSort_ne_nil cmpAll _ _ hx
    cases hgl : (jsSort cmpAll ((a :: t).map
        (fun p => (p.1, p.2.release_date.getD "")))).getLast? with
    | none => exact absurd (List.getLast?_eq_none_iff.mp hgl) hne
    | some m => simp [hgl]

/-- C9: latest-release lookup (for tables whose version strings do not
normalize to NaN) returns absent exactly on an empty table; with a
current-flagged release present it returns a current release maximal by
(numeric version, then date); with none it returns a release maximal by
(date, then numeric version) — in particular two identically dated
non-current releases yield the higher version. -/
theorem claim_c9_latest_release (rel : List (String × BrowserRelease))
    (hgood : ∀ p ∈ rel, normalizeVersion (.str p.1) ≠ .nan) :
    (getLatestVersionFromReleases (some rel) = none ↔ rel = [])
    ∧ getLatestVersionFromReleases none = none
    ∧ ((∃ p ∈ rel, isCurrentRelease p) →
        ∃ p ∈ rel, isCurrentRelease p
          ∧ getLatestVersionFromReleases (some rel) = some p.1
          ∧ ∀ q ∈ rel, isCurrentRelease q →
              vq q.1 < vq p.1
              ∨ (vq q.1 = vq p.1 ∧ strCmp (releaseDateOf q) (releaseDateOf p) ≤ 0))
    ∧ ((¬ ∃ p ∈ rel, isCurrentRelease p) → rel ≠ [] →
        ∃ p ∈ rel, getLatestVersionFromReleases (some rel) = some p.1
          ∧ ∀ q ∈ rel, strCmp (releaseDateOf q) (releaseDateOf p) < 0
              ∨ (releaseDateOf q = releaseDateOf p ∧ vq q.1 ≤ vq p.1))
    ∧ getLatestVersionFromReleases (some scenarioF_releases) = some "100" := by
  refine ⟨?_, rfl, ?_, ?_, by decide⟩
  · cases rel with
    | nil => exact iff_of_true rfl rfl
    | cons a t =>
      constructor
      · intro h
        exact absurd h (getLatest_cons_ne_none a t)
      · intro h
        exact List.noConfusion h
  · intro hcur
    obtain ⟨p0, hp0mem, hp0cur⟩ := hcur
    have hp0s : (p0.1, p0.2.release_date.getD "") ∈
        (rel.filter (fun p => p.2.status = some "current")).map
          (fun p => (p.1, p.2.release_date.getD "")) := by
      rw [List.mem_map]
      exact ⟨p0, List.mem_filter.mpr ⟨hp0mem, hp0cur⟩, rfl⟩
    have hlen : ((rel.filter (fun p => p.2.status = some "current")).map
        (fun p => (p.1, p.2.release_date.getD ""))).length > 0 :=
      List.length_pos.mpr (List.ne_nil_of_mem hp0s)
    have hgoodS : ∀ x ∈ (rel.filter (fun p => p.2.status = some "current")).map
        (fun p => (p.1, p.2.release_date.getD "")), GoodVer x := by
      intro x hx
      rw [List.mem_map] at hx
      obtain ⟨p, hpf, he⟩ := hx
      rw [← he]
      exact hgood p (List.mem_filter.mp hpf).1
    have hpw := jsSort_pairwise cmpStable GoodVer
      (fun a b ha hb h => cmpStable_total a b ha hb h)
      (fun a b d ha hb hd h1 h2 => cmpStable_trans a b d ha hb hd h1 h2) _ hgoodS
    have hnn := jsSort_ne_nil cmpStable _ _ hp0s
    cases hgl : (jsSort cmpStable ((rel.filter (fun p => p.2.status = some "current")).map
        (fun p => (p.1, p.2.release_date.getD "")))).getLast? with
    | none => exact absurd (List.getLast?_eq_none_iff.mp hgl) hnn
    | some m =>
      have hmS : m ∈ (rel.filter (fun p => p.2.status = some "current")).map
          (fun p => (p.1, p.2.release_date.getD "")) :=
        (jsSort_mem _ _ _).mp (List.mem_of_mem_getLast? hgl)
      rw [List.mem_map] at hmS
      obtain ⟨p, hpf, hpm⟩ := hmS
      obtain ⟨hpr, hpc⟩ := List.mem_filter.mp hpf
      subst hpm
      refine ⟨p, hpr, hpc, ?_, ?_⟩
      · simp only [getLatestVersionFromReleases]
        rw [if_pos hlen, hgl]
        rfl
      · intro q hq hqc
        have hqS : (q.1, q.2.release_date.getD "") ∈
            (rel.filter (fun p => p.2.status = some "current")).map
              (fun p => (p.1, p.2.release_date.getD "")) := by
          rw [List.mem_map]
          exact ⟨q, List.mem_filter.mpr ⟨hq, hqc⟩, rfl⟩
        have hrel := getLast?_pairwise_rel _ hpw _ hgl _ ((jsSort_mem _ _ _).mpr hqS)
        have hgq : GoodVer (q.1, q.2.release_date.getD "") := hgood q hq
        have hgp : GoodVer (p.1, p.2.release_date.getD "") := hgood p hpr
        rcases hrel with hle | heq
        · rw [cmpStable_good_eq _ _ hgq hgp] at hle
          by_cases h1 : vq q.1 < vq p.1
          · exact Or.inl h1
          · by_cases h2 : vq p.1 < vq q.1
            · rw [if_neg h1, if_pos h2] at hle
              exact absurd hle (by decide)
            · rw [if_neg h1, if_neg h2] at hle
              exact Or.inr ⟨le_antisymm (not_lt.mp h2) (not_lt.mp h1), hle⟩
        · injection heq with h1 h2
          refine Or.inr ⟨by rw [h1], ?_⟩
          show strCmp (q.2.release_date.getD "") (p.2.release_date.getD "") ≤ 0
          rw [h2, strCmp_self]
  · intro hncur hne
    have hstable : rel.filter (fun p => p.2.status = some "current") = [] := by
      rw [List.filter_eq_nil_iff]
      intro p hp hc
      exact hncur ⟨p, hp, hc⟩
    have hlen : ¬ ((rel.filter (fun p => p.2.status = some "current")).map
        (fun p => (p.1, p.2.release_date.getD ""))).length > 0 := by
      rw [hstable]
      simp
    cases rel with
    | nil => exact absurd rfl hne
    | cons a t =>
      have hx : (a.1, a.2.release_date.getD "") ∈ (a :: t).map
          (fun p => (p.1, p.2.release_date.getD "")) := by
        rw [List.mem_map]
        exact ⟨a, List.mem_cons_self _ _, rfl⟩
      have hpw := jsSort_pairwise cmpAll (fun _ : String × String => True)
        (fun a b _ _ h => cmpAll_total a b h)
        (fun a b d _ _ _ h1 h2 => cmpAll_trans a b d h1 h2)
        ((a :: t).map (fun p => (p.1, p.2.release_date.getD ""))) (fun y _ => trivial)
      have hnn := jsSort_ne_nil cmpAll _ _ hx
      cases hgl : (jsSort cmpAll ((a :: t).map
          (fun p => (p.1, p.2.release_date.getD "")))).getLast? with
      | none => exact absurd (List.getLast?_eq_none_iff.mp hgl) hnn
      | some m =>
        have hmS : m ∈ (a :: t).map (fun p => (p.1, p.2.release_date.getD "")) :=
          (jsSort_mem _ _ _).mp (List.mem_of_mem_getLast? hgl)
        rw [List.mem_map] at hmS
        obtain ⟨p, hpr, hpm⟩ := hmS
        subst hpm
        refine ⟨p, hpr, ?_, ?_⟩
        · simp only [getLatestVersionFromReleases]
          rw [if_neg hlen, hgl]
          rfl
        · intro q hq
          have hqS : (q.1, q.2.release_date.getD "") ∈ (a :: t).map
              (fun p => (p.1, p.2.release_date.getD "")) := by
            rw [List.mem_map]
            exact ⟨q, hq, rfl⟩
          have hrel := getLast?_pairwise_rel _ hpw _ hgl _ ((jsSort_mem _ _ _).mpr hqS)
          rcases hrel with hle | heq
          · unfold cmpAll at hle
            dsimp only at hle
            by_cases hd : strCmp (q.2.release_date.getD "") (p.2.release_date.getD "") ≠ 0
            · rw [if_pos hd] at hle
              refine Or.inl ?_
              show strCmp (q.2.release_date.getD "") (p.2.release_date.getD "") < 0
              omega
            · push_neg at hd
              have hdd : q.2.release_date.getD "" = p.2.release_date.getD "" :=
                strCmp_eq_zero _ _ hd
              rw [if_neg (fun hh => hh hd)] at hle
              refine Or.inr ⟨hdd, ?_⟩
              rw [verNumJs_good q.1 (hgood q hq), verNumJs_good p.1 (hgood p hpr)] at hle
              dsimp only at hle
              by_cases h1 : vq q.1 < vq p.1
              · exact le_of_lt h1
              · by_cases h2 : vq p.1 < vq q.1
                · rw [if_neg h1, if_pos h2] at hle
                  exact absurd hle (by decide)
                · exact not_lt.mp h2
          · injection heq with h1 h2
            exact Or.inr ⟨h2, by rw [h1]⟩

/-- Witness for C9 at the Scenario F table. -/
theorem claim_c9_witness :
    (getLatestVersionFromReleases (some scenarioF_releases) = none ↔ scenarioF_releases = [])
    ∧ getLatestVersionFromReleases (some scenarioF_releases) = some "100" :=
  ⟨(claim_c9_latest_release scenarioF_releases (by decide)).1,
   (claim_c9_latest_release scenarioF_releases (by decide)).2.2.2.2⟩
